import Mathlib

/-!
Verification of the implicit free-list allocator in `mm.c`
(JonathanWilkins1/malloc).

The heap is modelled at byte granularity: `Mem = Nat → Nat` maps a byte
address to a byte value.  Boundary tags are 32-bit little-endian values
occupying four consecutive bytes, matching `typedef uint32_t tag` on the
x86-64 target of the course assignment.  Machine arithmetic on `uint32_t`
is modelled with explicit `% 4294967296`.

The memory provider (`memlib`) is not part of the repository sources, so
it is modelled from the spec (section 5): a monotonically growing break
with a fixed capacity, refusing negative or over-capacity requests.
-/

set_option maxHeartbeats 1000000

namespace Malloc

/-- Byte-addressed memory: address to byte value. -/
abbrev Mem := Nat → Nat

/-- The two`s-complement range of `uint32_t`. -/
def U32 : Nat := 4294967296

/-- Store a single byte (used by `mm_init`, whose prologue store
`*(g_heapBase - WORD_SIZE) = 0 | 1` assigns through a `byte*`). -/
def writeByte (m : Mem) (a v : Nat) : Mem :=
  fun x => if x = a then v % 256 else m x

/-- Read a 32-bit tag, little-endian, from four consecutive bytes. -/
def readTag (m : Mem) (a : Nat) : Nat :=
  m a + 256 * m (a + 1) + 65536 * m (a + 2) + 16777216 * m (a + 3)

/-- Store a 32-bit tag, little-endian, into four consecutive bytes. -/
def writeTag (m : Mem) (a v : Nat) : Mem :=
  writeByte (writeByte (writeByte (writeByte m a v) (a + 1) (v / 256))
    (a + 2) (v / 65536)) (a + 3) (v / 16777216)

/-- `const uint8_t WORD_SIZE = 8`. -/
def WORD_SIZE : Nat := 8

/-- `const uint8_t TAG_SIZE = 4`. -/
def TAG_SIZE : Nat := 4

/-- `const uint8_t DWORD_SIZE = 16`. -/
def DWORD_SIZE : Nat := 16

/-- `const uint8_t OVERHEAD_BYTES = 8`. -/
def OVERHEAD_BYTES : Nat := 8

/-- Modelled from the spec: the provider state.  `mem` holds the bytes of
the region (initial contents unspecified by the provider contract),
`brk` is the current break (the heap occupies addresses `[0, brk)`),
`cap` the provider capacity. -/
structure Heap where
  mem : Mem
  brk : Nat
  cap : Nat

/-- Allocator state: the provider heap plus the global `g_heapBase`
(`0` encodes the null/uninitialized base). -/
structure AState where
  heap : Heap
  heapBase : Nat

/-- Modelled from the spec: `init()` resets provider state prior to first
use; the region starts with break 0. -/
def mem_init (m : Mem) (cap : Nat) : Heap := ⟨m, 0, cap⟩

/-- Modelled from the spec: `extend(bytes) → base | failure`; grows the
break monotonically, returning the old break, refusing a negative
increment or a request past the capacity (memlib `mem_sbrk`). -/
def mem_sbrk (h : Heap) (incr : Int) : Option (Nat × Heap) :=
  if incr < 0 then none
  else if h.cap < h.brk + incr.toNat then none
  else some (h.brk, ⟨h.mem, h.brk + incr.toNat, h.cap⟩)

/-- `header(p) = (tag*)(p - TAG_SIZE)`. -/
def header (p : Nat) : Nat := p - TAG_SIZE

/-- `isAllocated(p) = *header(p) & 0x1`. -/
def isAllocated (m : Mem) (p : Nat) : Bool := readTag m (header p) % 2 = 1

/-- `sizeOf(p) = *header(p) & ~0x1` (block size in words). -/
def sizeOf (m : Mem) (p : Nat) : Nat :=
  readTag m (header p) - readTag m (header p) % 2

/-- `nextBlock(p) = p + sizeOf(p) * WORD_SIZE`. -/
def nextBlock (m : Mem) (p : Nat) : Nat := p + sizeOf m p * WORD_SIZE

/-- `footer(p) = (tag*)(nextBlock(p) - WORD_SIZE)`. -/
def footer (m : Mem) (p : Nat) : Nat := nextBlock m p - WORD_SIZE

/-- `prevFooter(p) = (tag*)(p - WORD_SIZE)`. -/
def prevFooter (p : Nat) : Nat := p - WORD_SIZE

/-- `nextHeader(p) = (tag*)(nextBlock(p) - TAG_SIZE)`. -/
def nextHeader (m : Mem) (p : Nat) : Nat := nextBlock m p - TAG_SIZE

/-- `prevBlock(p) = p - sizeOf((address)header(p)) * WORD_SIZE`:
the size is read from the tag at `p - 8`, the predecessor`s footer. -/
def prevBlock (m : Mem) (p : Nat) : Nat :=
  p - sizeOf m (header p) * WORD_SIZE

/-- `makeBlock(p, t, b)`: `*header(p) = t | b; *footer(p) = t | b;` —
the footer address is computed after the header store, so it uses the
freshly written size. -/
def makeBlock (m : Mem) (p t : Nat) (b : Bool) : Mem :=
  let m1 := writeTag m (header p) (t ||| (if b then 1 else 0))
  writeTag m1 (footer m1 p) (t ||| (if b then 1 else 0))

/-- `toggleBlock(p)`: `*header(p) = sizeOf(p) | !isAllocated(p);` then
`*footer(p) = sizeOf(p) | isAllocated(p);` — the second statement reads
the freshly updated header, so the footer also receives the toggled
allocation bit. -/
def toggleBlock (m : Mem) (p : Nat) : Mem :=
  let m1 := writeTag m (header p)
    (sizeOf m p ||| (if isAllocated m p then 0 else 1))
  writeTag m1 (footer m1 p)
    (sizeOf m1 p ||| (if isAllocated m1 p then 1 else 0))

/-- `coalesce(ptr)`: merge the freed block with unallocated neighbors.
The predecessor state is read through `prev = (address)header(ptr)`,
whose header tag is the tag at `ptr - 8`, the predecessor`s footer. -/
def coalesce (m : Mem) (ptr : Nat) : Nat × Mem :=
  let prev := header ptr
  let alloc_prevBlock := isAllocated m prev
  let alloc_nextBlock := isAllocated m (nextBlock m ptr)
  let size := sizeOf m ptr
  if alloc_prevBlock && alloc_nextBlock then
    (ptr, m)
  else if alloc_prevBlock && !alloc_nextBlock then
    let size2 := (size + sizeOf m (nextBlock m ptr)) % U32
    (ptr, makeBlock m ptr size2 false)
  else if !alloc_prevBlock && alloc_nextBlock then
    let size2 := (size + sizeOf m prev) % U32
    let ptr2 := prevBlock m ptr
    (ptr2, makeBlock m ptr2 size2 false)
  else
    let size2 := (size + (sizeOf m prev + sizeOf m (nextBlock m ptr))) % U32
    let ptr2 := prevBlock m ptr
    (ptr2, makeBlock m ptr2 size2 false)

/-- `extendHeap(p, size)`: grow the heap.  If the block before the
epilogue is free its word count is subtracted from the request
(`uint32_t` subtraction); the new free block is imprinted, a fresh
epilogue written, and the result coalesced with a free tail block. -/
def extendHeap (s : AState) (p size : Nat) : Option (Nat × AState) :=
  let m := s.heap.mem
  let prevSize := sizeOf m (prevBlock m p)
  let asize := if isAllocated m (prevBlock m p) then size
    else (size + U32 - prevSize) % U32
  let incrU := asize * WORD_SIZE % U32
  let incr : Int := if incrU < 2147483648 then (incrU : Int)
    else (incrU : Int) - (U32 : Int)
  match mem_sbrk s.heap incr with
  | none => none
  | some (p2, h2) =>
    let m1 := makeBlock h2.mem p2 asize false
    let m2 := writeTag m1 (nextHeader m1 p2) 1
    let r := coalesce m2 p2
    some (r.1, ⟨⟨r.2, h2.brk, h2.cap⟩, s.heapBase⟩)

/-- `mm_init()`: take 64 bytes from the provider, advance the base two
words, store the prologue through a `byte*` (a single byte `0 | 1` at
`g_heapBase - 8`), imprint the initial free 6-word block, and write the
epilogue tag `0 | 1`.  Returns `none` for `-1`. -/
def mm_init (m : Mem) (cap : Nat) : Option AState :=
  let h := mem_init m cap
  match mem_sbrk h (8 * (WORD_SIZE : Int)) with
  | none => none
  | some (b, h1) =>
    let base := b + DWORD_SIZE
    let m1 := writeByte h1.mem (base - WORD_SIZE) 1
    let m2 := makeBlock m1 base 6 false
    let m3 := writeTag m2 (nextHeader m2 base) 1
    some ⟨⟨m3, h1.brk, h1.cap⟩, base⟩

/-- `actSize = (((size + OVERHEAD_BYTES) + (DWORD_SIZE - 1)) / DWORD_SIZE) * 2`
in `uint32_t` arithmetic. -/
def actSizeCalc (size : Nat) : Nat :=
  ((size + OVERHEAD_BYTES) % U32 + (DWORD_SIZE - 1)) % U32 / DWORD_SIZE * 2

/-- The first-fit scan `for (; sizeOf(p) != 0; p = nextBlock(p))` of
`mm_malloc`: skip allocated blocks, stop at the first free block that
holds `actSize` words (`Sum.inl`), or at the terminating zero-size tag
(`Sum.inr`).  The C loop has no termination guarantee on an ill-formed
heap, so the model carries fuel; `mm_malloc` passes more fuel than any
well-formed heap can consume. -/
def findFit (m : Mem) (actSize : Nat) : Nat → Nat → Option (Nat ⊕ Nat)
  | _, 0 => none
  | p, fuel + 1 =>
    if sizeOf m p ≠ 0 then
      if isAllocated m p then findFit m actSize (nextBlock m p) fuel
      else if actSize ≤ sizeOf m p then some (Sum.inl p)
      else findFit m actSize (nextBlock m p) fuel
    else some (Sum.inr p)

/-- `mm_malloc(size)`: first-fit placement with split of the leftover,
falling back to `extendHeap`.  Returns the payload base, or `none` for
`NULL`; the state is returned alongside. -/
def mm_malloc (s : AState) (size : Nat) : Option Nat × AState :=
  if size = 0 then (none, s)
  else
    let actSize := actSizeCalc size
    match findFit s.heap.mem actSize s.heapBase (s.heap.brk + 1) with
    | some (Sum.inl p) =>
      let psize := sizeOf s.heap.mem p
      let m1 := makeBlock s.heap.mem p actSize true
      let m2 := if actSize < psize then
          makeBlock m1 (nextBlock m1 p) (psize - actSize) false
        else m1
      (some p, ⟨⟨m2, s.heap.brk, s.heap.cap⟩, s.heapBase⟩)
    | some (Sum.inr p) =>
      match extendHeap s p actSize with
      | none => (none, s)
      | some (p2, s2) =>
        let m3 := makeBlock s2.heap.mem p2 actSize true
        (some p2, ⟨⟨m3, s2.heap.brk, s2.heap.cap⟩, s2.heapBase⟩)
    | none => (none, s)

/-- `mm_free(ptr)`: no-op on null, unallocated, or uninitialized heap;
otherwise toggle the block and coalesce. -/
def mm_free (s : AState) (ptr : Nat) : AState :=
  if ptr = 0 ∨ isAllocated s.heap.mem ptr = false ∨ s.heapBase = 0 then s
  else
    let m1 := toggleBlock s.heap.mem ptr
    let m2 := (coalesce m1 ptr).2
    ⟨⟨m2, s.heap.brk, s.heap.cap⟩, s.heapBase⟩

/-- `memcpy(newPtr, ptr, oldSize)`: byte copy of `n` bytes from `src`
to `dst` (the blocks never overlap in the uses below). -/
def memcpy (m : Mem) (dst src n : Nat) : Mem :=
  fun x => if dst ≤ x ∧ x < dst + n then m (src + (x - dst)) else m x

/-- `mm_realloc(ptr, size)`: null pointer delegates to `mm_malloc`,
zero size to `mm_free`; otherwise allocate a new block, copy
`min(size, sizeOf(ptr) * WORD_SIZE)` bytes, free the old block and
return the new base. -/
def mm_realloc (s : AState) (ptr size : Nat) : Option Nat × AState :=
  if ptr = 0 then mm_malloc s size
  else if size = 0 then (none, mm_free s ptr)
  else
    match mm_malloc s size with
    | (none, s1) => (none, s1)
    | (some newPtr, s1) =>
      let oldSize := sizeOf s1.heap.mem ptr * WORD_SIZE % U32
      let oldSize2 := if size < oldSize then size else oldSize
      let m2 := memcpy s1.heap.mem newPtr ptr oldSize2
      let s2 : AState := ⟨⟨m2, s1.heap.brk, s1.heap.cap⟩, s1.heapBase⟩
      let s3 := mm_free s2 ptr
      (some newPtr, s3)

/-! ## Abstract heap layer -/

/-- Memory whose cells are genuine bytes. -/
def Bytes (m : Mem) : Prop := ∀ x, m x < 256

/-- An abstract block: word count and allocation state. -/
structure Blk where
  size : Nat
  alloc : Bool
deriving Repr, DecidableEq

/-- Total word count of a block list. -/
def Wsum : List Blk → Nat
  | [] => 0
  | b :: r => b.size + Wsum r

/-- The boundary-tag value of a block: `size_in_words | alloc_bit`. -/
def tagV (b : Blk) : Nat := b.size + (if b.alloc then 1 else 0)

/-- The header tag at `a - 4` and the footer tag at `a + 8·size - 8`
both hold the block`s tag value. -/
def blockAt (m : Mem) (a : Nat) (b : Blk) : Prop :=
  readTag m (a - 4) = tagV b ∧ readTag m (a + 8 * b.size - 8) = tagV b

/-- The block list is laid out contiguously from base `a`. -/
def blocksAt (m : Mem) : Nat → List Blk → Prop
  | _, [] => True
  | a, b :: r => blockAt m a b ∧ blocksAt m (a + 8 * b.size) r

/-- Every block has an even word count of at least 2. -/
def sizesOK (bs : List Blk) : Prop := ∀ b ∈ bs, 2 ≤ b.size ∧ b.size % 2 = 0

/-- No two adjacent blocks are both free. -/
def noAdjFree (bs : List Blk) : Prop :=
  List.Chain' (fun a b => a.alloc = true ∨ b.alloc = true) bs

/-- Well-formed allocator state realizing the abstract block list `bs`:
the first base is 16, the prologue tag at byte 8 reads as allocated,
the blocks tile `[16, brk)` and the epilogue tag `0 | 1` sits in the
last word.  The capacity bound keeps every `uint32_t` computation of
the allocator below its wrap-around point. -/
structure WF (s : AState) (bs : List Blk) : Prop where
  bytes : Bytes s.heap.mem
  base : s.heapBase = 16
  nonempty : bs ≠ []
  prologue : readTag s.heap.mem 8 % 2 = 1
  blocks : blocksAt s.heap.mem 16 bs
  epilogue : readTag s.heap.mem (12 + 8 * Wsum bs) = 1
  brk : s.heap.brk = 16 + 8 * Wsum bs
  brkcap : s.heap.brk ≤ s.heap.cap
  cap : s.heap.cap ≤ 2 ^ 31
  sizes : sizesOK bs
  noadj : noAdjFree bs

/-- Allocation state of the block preceding a freed block (the prologue
counts as allocated). -/
def lastAlloc (pre : List Blk) : Bool :=
  (pre.getLast?).elim true Blk.alloc

/-- Allocation state of the block following a freed block (the epilogue
counts as allocated). -/
def headAlloc (post : List Blk) : Bool :=
  (post.head?).elim true Blk.alloc

/-- Modelled from the spec: the coalescing table of section 4.4 — the
freed block of size `sz` absorbs a free predecessor and/or a free
successor. -/
def coalesceSpec (pre : List Blk) (sz : Nat) (post : List Blk) : List Blk :=
  if lastAlloc pre then
    if headAlloc post then
      pre ++ ⟨sz, false⟩ :: post
    else
      pre ++ ⟨sz + (post.head?).elim 0 Blk.size, false⟩ :: post.tail
  else
    if headAlloc post then
      pre.dropLast ++ ⟨sz + (pre.getLast?).elim 0 Blk.size, false⟩ :: post
    else
      pre.dropLast ++
        ⟨sz + (pre.getLast?).elim 0 Blk.size + (post.head?).elim 0 Blk.size,
          false⟩ :: post.tail

/-- `p` is the base address of an allocated block of the well-formed
state `s`. -/
def IsAllocBase (s : AState) (p : Nat) : Prop :=
  ∃ bs pre b post, WF s bs ∧ bs = pre ++ b :: post ∧ b.alloc = true ∧
    p = 16 + 8 * Wsum pre

/-- States reachable by the public API used within its contract: `init`
from an arbitrary provider region, `allocate` with a request that does
not overflow the `uint32_t` size computation, `free` and `reallocate`
on null or currently allocated base addresses. -/
inductive Reach : AState → Prop where
  | init (m : Mem) (cap : Nat) (s : AState) : Bytes m → cap ≤ 2 ^ 31 →
      mm_init m cap = some s → Reach s
  | malloc (s : AState) (N : Nat) : Reach s → N + 24 ≤ U32 →
      Reach (mm_malloc s N).2
  | free (s : AState) (p : Nat) : Reach s → IsAllocBase s p →
      Reach (mm_free s p)
  | reallocNull (s : AState) (N : Nat) : Reach s → N + 24 ≤ U32 →
      Reach (mm_realloc s 0 N).2
  | realloc (s : AState) (p N : Nat) : Reach s → IsAllocBase s p →
      N + 24 ≤ U32 → Reach (mm_realloc s p N).2

/-! ## Concrete states for witnesses and counterexamples -/

/-- An all-zero provider region. -/
def zeroMem : Mem := fun _ => 0

/-- A provider region with one nonzero garbage byte at offset 9. -/
def garbageMem : Mem := fun x => if x = 9 then 255 else 0

/-- The state after `mm_init` on a zeroed 1024-byte-capacity provider. -/
def st0 : AState := (mm_init zeroMem 1024).getD ⟨⟨zeroMem, 0, 0⟩, 0⟩

/-- `st0` after `p = mm_malloc 8` (returns base 16; heap becomes an
allocated 2-word block followed by a free 4-word block). -/
def st1 : AState := (mm_malloc st0 8).2

/-- The state after `mm_init` on a provider with capacity 64, too small
for any extension. -/
def stSmall : AState := (mm_init zeroMem 64).getD ⟨⟨zeroMem, 0, 0⟩, 0⟩

/-- The state after `mm_init` on the garbage provider region. -/
def stG : AState := (mm_init garbageMem 1024).getD ⟨⟨zeroMem, 0, 0⟩, 0⟩

/-! ## Byte and tag algebra -/

theorem writeByte_self {m : Mem} {a v : Nat} : writeByte m a v a = v % 256 := by
  simp [writeByte]

theorem writeByte_other {m : Mem} {a v x : Nat} (h : x ≠ a) :
    writeByte m a v x = m x := by
  simp [writeByte, h]

theorem bytes_writeByte {m : Mem} (hB : Bytes m) (a v : Nat) :
    Bytes (writeByte m a v) := by
  intro x
  unfold writeByte
  split
  · omega
  · exact hB x

theorem bytes_writeTag {m : Mem} (hB : Bytes m) (a v : Nat) :
    Bytes (writeTag m a v) :=
  bytes_writeByte (bytes_writeByte (bytes_writeByte (bytes_writeByte hB _ _)
    _ _) _ _) _ _

theorem bytes_memcpy {m : Mem} (hB : Bytes m) (dst src n : Nat) :
    Bytes (memcpy m dst src n) := by
  intro x
  unfold memcpy
  split
  · exact hB _
  · exact hB x

theorem writeTag_out {m : Mem} {a v x : Nat} (h : x < a ∨ a + 4 ≤ x) :
    writeTag m a v x = m x := by
  unfold writeTag
  rw [writeByte_other (by omega), writeByte_other (by omega),
    writeByte_other (by omega), writeByte_other (by omega)]

theorem writeTag_b0 {m : Mem} {a v : Nat} : writeTag m a v a = v % 256 := by
  unfold writeTag
  rw [writeByte_other (by omega), writeByte_other (by omega),
    writeByte_other (by omega), writeByte_self]

theorem writeTag_b1 {m : Mem} {a v : Nat} :
    writeTag m a v (a + 1) = v / 256 % 256 := by
  unfold writeTag
  rw [writeByte_other (by omega), writeByte_other (by omega), writeByte_self]

theorem writeTag_b2 {m : Mem} {a v : Nat} :
    writeTag m a v (a + 2) = v / 65536 % 256 := by
  unfold writeTag
  rw [writeByte_other (by omega), writeByte_self]

theorem writeTag_b3 {m : Mem} {a v : Nat} :
    writeTag m a v (a + 3) = v / 16777216 % 256 := by
  unfold writeTag
  rw [writeByte_self]

theorem readTag_congr {m m' : Mem} {a : Nat}
    (h : ∀ x, a ≤ x → x < a + 4 → m' x = m x) :
    readTag m' a = readTag m a := by
  unfold readTag
  rw [h a (by omega) (by omega), h (a + 1) (by omega) (by omega),
    h (a + 2) (by omega) (by omega), h (a + 3) (by omega) (by omega)]

theorem readTag_writeTag_self {m : Mem} {a v : Nat} :
    readTag (writeTag m a v) a = v % U32 := by
  unfold readTag
  rw [writeTag_b0, writeTag_b1, writeTag_b2, writeTag_b3]
  unfold U32
  omega

theorem readTag_writeTag_out {m : Mem} {a b v : Nat}
    (h : a + 4 ≤ b ∨ b + 4 ≤ a) :
    readTag (writeTag m b v) a = readTag m a :=
  readTag_congr fun x h1 h2 => writeTag_out (by omega)

theorem readTag_lt {m : Mem} (hB : Bytes m) (a : Nat) : readTag m a < U32 := by
  have h0 := hB a
  have h1 := hB (a + 1)
  have h2 := hB (a + 2)
  have h3 := hB (a + 3)
  unfold readTag U32
  omega

theorem even_lor_one {n : Nat} (h : n % 2 = 0) : n ||| 1 = n + 1 := by
  apply Nat.eq_of_testBit_eq
  intro i
  cases i with
  | zero =>
    simp [Nat.testBit_lor, Nat.testBit_zero]
    omega
  | succ j =>
    rw [Nat.testBit_lor, Nat.testBit_add_one, Nat.testBit_add_one,
      Nat.testBit_add_one]
    have h2 : (1 : Nat) / 2 = 0 := by omega
    have h3 : (n + 1) / 2 = n / 2 := by omega
    simp [h2, h3]

theorem lor_bitv {t : Nat} (ht : t % 2 = 0) (b : Bool) :
    (t ||| (if b then 1 else 0)) = t + (if b then 1 else 0) := by
  cases b
  · simp
  · simp only [if_pos trivial]
    exact even_lor_one ht

theorem sizeOf_mod_two {m : Mem} {p : Nat} : sizeOf m p % 2 = 0 := by
  unfold sizeOf
  omega

theorem readTag_header_eq (m : Mem) (p : Nat) :
    readTag m (header p) =
      sizeOf m p + (if isAllocated m p then 1 else 0) := by
  unfold sizeOf isAllocated
  by_cases h : readTag m (header p) % 2 = 1 <;> simp [h] <;> omega

theorem isAllocated_true_iff {m : Mem} {p : Nat} :
    isAllocated m p = true ↔ readTag m (header p) % 2 = 1 := by
  simp [isAllocated]

theorem isAllocated_false_iff {m : Mem} {p : Nat} :
    isAllocated m p = false ↔ readTag m (header p) % 2 = 0 := by
  simp only [isAllocated, decide_eq_false_iff_not]
  omega

theorem tagV_eq (b : Blk) : tagV b = b.size + (if b.alloc then 1 else 0) :=
  rfl

theorem sizeOf_of_blockAt {m : Mem} {a : Nat} {b : Blk}
    (h : blockAt m a b) (he : b.size % 2 = 0) : sizeOf m a = b.size := by
  have h1 := h.1
  unfold sizeOf header TAG_SIZE
  rw [h1]
  unfold tagV
  cases b.alloc <;> simp <;> omega

theorem isAllocated_of_blockAt {m : Mem} {a : Nat} {b : Blk}
    (h : blockAt m a b) (he : b.size % 2 = 0) :
    isAllocated m a = b.alloc := by
  have h1 := h.1
  unfold isAllocated header TAG_SIZE
  rw [h1]
  unfold tagV
  cases b.alloc <;> simp <;> omega

theorem nextBlock_of_blockAt {m : Mem} {a : Nat} {b : Blk}
    (h : blockAt m a b) (he : b.size % 2 = 0) :
    nextBlock m a = a + 8 * b.size := by
  unfold nextBlock WORD_SIZE
  rw [sizeOf_of_blockAt h he]
  ring

/-! ## Reading and framing `makeBlock` and `toggleBlock` -/

theorem U32_eq : U32 = 4294967296 := rfl

theorem header_eq (p : Nat) : header p = p - 4 := rfl

theorem sizeOf_writeTag_self {m : Mem} {p v : Nat} :
    sizeOf (writeTag m (header p) v) p = v % U32 - v % U32 % 2 := by
  unfold sizeOf
  rw [readTag_writeTag_self]

theorem isAllocated_writeTag_self {m : Mem} {p v : Nat} :
    isAllocated (writeTag m (header p) v) p = decide (v % U32 % 2 = 1) := by
  unfold isAllocated
  rw [readTag_writeTag_self]

theorem makeBlock_footer_addr {m : Mem} {p t : Nat} {b : Bool}
    (ht : t % 2 = 0) (hlt : t + 1 < U32) (hp : 4 ≤ p) :
    footer (writeTag m (header p) (t ||| (if b then 1 else 0))) p =
      p + 8 * t - 8 := by
  have hv : (t ||| (if b then 1 else 0)) = t + (if b then 1 else 0) :=
    lor_bitv ht b
  have hvm : (t + (if b then 1 else 0)) % U32 = t + (if b then 1 else 0) := by
    rw [U32_eq] at *
    cases b <;> simp <;> omega
  have hs : sizeOf (writeTag m (header p) (t ||| (if b then 1 else 0))) p
      = t := by
    rw [hv, sizeOf_writeTag_self, hvm]
    cases b <;> simp <;> omega
  unfold footer nextBlock WORD_SIZE
  rw [hs]
  omega

theorem makeBlock_out {m : Mem} {p t x : Nat} {b : Bool}
    (ht : t % 2 = 0) (h1 : 1 ≤ t) (hlt : t + 1 < U32) (hp : 4 ≤ p)
    (hx : x + 4 < p ∨ p + 8 * t - 4 ≤ x) :
    makeBlock m p t b x = m x := by
  simp only [makeBlock]
  rw [makeBlock_footer_addr ht hlt hp]
  rw [writeTag_out (by omega), writeTag_out (by rw [header_eq]; omega)]

theorem readTag_makeBlock_header {m : Mem} {p t : Nat} {b : Bool}
    (ht : t % 2 = 0) (h1 : 1 ≤ t) (hlt : t + 1 < U32) (hp : 4 ≤ p) :
    readTag (makeBlock m p t b) (p - 4) = t + (if b then 1 else 0) := by
  simp only [makeBlock]
  rw [makeBlock_footer_addr ht hlt hp]
  rw [readTag_writeTag_out (by omega)]
  rw [header_eq, lor_bitv ht, readTag_writeTag_self]
  rw [U32_eq] at *
  cases b <;> simp <;> omega

theorem readTag_makeBlock_footer {m : Mem} {p t : Nat} {b : Bool}
    (ht : t % 2 = 0) (h1 : 1 ≤ t) (hlt : t + 1 < U32) (hp : 4 ≤ p) :
    readTag (makeBlock m p t b) (p + 8 * t - 8) = t + (if b then 1 else 0) := by
  simp only [makeBlock]
  rw [makeBlock_footer_addr ht hlt hp]
  rw [lor_bitv ht, readTag_writeTag_self]
  rw [U32_eq] at *
  cases b <;> simp <;> omega

theorem readTag_makeBlock_out {m : Mem} {p t a : Nat} {b : Bool}
    (ht : t % 2 = 0) (h1 : 1 ≤ t) (hlt : t + 1 < U32) (hp : 4 ≤ p)
    (ha : (a + 4 ≤ p - 4 ∨ p ≤ a) ∧
      (a + 4 ≤ p + 8 * t - 8 ∨ p + 8 * t - 4 ≤ a)) :
    readTag (makeBlock m p t b) a = readTag m a := by
  simp only [makeBlock]
  rw [makeBlock_footer_addr ht hlt hp]
  rw [readTag_writeTag_out (by omega),
    readTag_writeTag_out (by rw [header_eq]; omega)]

theorem toggleBlock_m1_sizeOf {m : Mem} {p : Nat} (hB : Bytes m) :
    sizeOf (writeTag m (header p)
      (sizeOf m p ||| (if isAllocated m p then 0 else 1))) p = sizeOf m p := by
  have hlt := readTag_lt hB (header p)
  have hse : sizeOf m p % 2 = 0 := sizeOf_mod_two
  have hsub : sizeOf m p + 1 < U32 := by
    unfold sizeOf
    rw [U32_eq] at *
    omega
  have hv : (sizeOf m p ||| (if isAllocated m p then 0 else 1)) =
      sizeOf m p + (if isAllocated m p then 0 else 1) := by
    cases isAllocated m p
    · simp [even_lor_one hse]
    · simp
  have hvm : (sizeOf m p + (if isAllocated m p then 0 else 1)) % U32 =
      sizeOf m p + (if isAllocated m p then 0 else 1) := by
    rw [U32_eq] at *
    cases isAllocated m p <;> simp <;> omega
  rw [hv, sizeOf_writeTag_self, hvm]
  cases isAllocated m p <;> simp <;> omega

theorem toggleBlock_m1_alloc {m : Mem} {p : Nat} (hB : Bytes m) :
    isAllocated (writeTag m (header p)
      (sizeOf m p ||| (if isAllocated m p then 0 else 1))) p =
      ! isAllocated m p := by
  have hlt := readTag_lt hB (header p)
  have hse : sizeOf m p % 2 = 0 := sizeOf_mod_two
  have hsub : sizeOf m p + 1 < U32 := by
    unfold sizeOf
    rw [U32_eq] at *
    omega
  have hv : (sizeOf m p ||| (if isAllocated m p then 0 else 1)) =
      sizeOf m p + (if isAllocated m p then 0 else 1) := by
    cases isAllocated m p
    · simp [even_lor_one hse]
    · simp
  have hvm : (sizeOf m p + (if isAllocated m p then 0 else 1)) % U32 =
      sizeOf m p + (if isAllocated m p then 0 else 1) := by
    rw [U32_eq] at *
    cases isAllocated m p <;> simp <;> omega
  rw [hv, isAllocated_writeTag_self, hvm]
  cases isAllocated m p
  · simp
    omega
  · simp
    omega

theorem toggleBlock_footer_addr {m : Mem} {p : Nat} (hB : Bytes m) :
    footer (writeTag m (header p)
      (sizeOf m p ||| (if isAllocated m p then 0 else 1))) p =
      p + 8 * sizeOf m p - 8 := by
  unfold footer nextBlock WORD_SIZE
  rw [toggleBlock_m1_sizeOf hB]
  omega

theorem toggleBlock_value2 {m : Mem} {p : Nat} (hB : Bytes m) :
    (sizeOf (writeTag m (header p)
        (sizeOf m p ||| (if isAllocated m p then 0 else 1))) p) |||
      (if isAllocated (writeTag m (header p)
        (sizeOf m p ||| (if isAllocated m p then 0 else 1))) p then 1 else 0) =
      sizeOf m p + (if isAllocated m p then 0 else 1) := by
  have hse : sizeOf m p % 2 = 0 := sizeOf_mod_two
  rw [toggleBlock_m1_sizeOf hB, toggleBlock_m1_alloc hB]
  cases isAllocated m p
  · simp [even_lor_one hse]
  · simp

theorem toggleBlock_out {m : Mem} {p x : Nat} (hB : Bytes m) (hp : 8 ≤ p)
    (h1 : 1 ≤ sizeOf m p)
    (hx : x + 4 < p ∨ p + 8 * sizeOf m p - 4 ≤ x) :
    toggleBlock m p x = m x := by
  simp only [toggleBlock]
  rw [toggleBlock_footer_addr hB]
  rw [writeTag_out (by omega), writeTag_out (by rw [header_eq]; omega)]

theorem readTag_toggleBlock_header {m : Mem} {p : Nat} (hB : Bytes m)
    (hp : 8 ≤ p) (h1 : 1 ≤ sizeOf m p) :
    readTag (toggleBlock m p) (p - 4) =
      sizeOf m p + (if isAllocated m p then 0 else 1) := by
  have hlt := readTag_lt hB (header p)
  have hse : sizeOf m p % 2 = 0 := sizeOf_mod_two
  have hsub : sizeOf m p + 1 < U32 := by
    unfold sizeOf
    rw [U32_eq] at *
    omega
  have hv : (sizeOf m p ||| (if isAllocated m p then 0 else 1)) =
      sizeOf m p + (if isAllocated m p then 0 else 1) := by
    cases isAllocated m p
    · simp [even_lor_one hse]
    · simp
  have hvm : (sizeOf m p + (if isAllocated m p then 0 else 1)) % U32 =
      sizeOf m p + (if isAllocated m p then 0 else 1) := by
    rw [U32_eq] at *
    cases isAllocated m p <;> simp <;> omega
  simp only [toggleBlock]
  rw [toggleBlock_footer_addr hB, toggleBlock_value2 hB]
  rw [readTag_writeTag_out (by omega)]
  rw [header_eq, hv, readTag_writeTag_self, hvm]

theorem readTag_toggleBlock_footer {m : Mem} {p : Nat} (hB : Bytes m)
    (hp : 8 ≤ p) (h1 : 1 ≤ sizeOf m p) :
    readTag (toggleBlock m p) (p + 8 * sizeOf m p - 8) =
      sizeOf m p + (if isAllocated m p then 0 else 1) := by
  have hlt := readTag_lt hB (header p)
  have hse : sizeOf m p % 2 = 0 := sizeOf_mod_two
  have hsub : sizeOf m p + 1 < U32 := by
    unfold sizeOf
    rw [U32_eq] at *
    omega
  have hvm : (sizeOf m p + (if isAllocated m p then 0 else 1)) % U32 =
      sizeOf m p + (if isAllocated m p then 0 else 1) := by
    rw [U32_eq] at *
    cases isAllocated m p <;> simp <;> omega
  simp only [toggleBlock]
  rw [toggleBlock_footer_addr hB, toggleBlock_value2 hB]
  rw [readTag_writeTag_self, hvm]

/-! ## Layout lemmas -/

theorem Wsum_append (xs ys : List Blk) :
    Wsum (xs ++ ys) = Wsum xs + Wsum ys := by
  induction xs with
  | nil => simp [Wsum]
  | cons b r ih => simp [Wsum, ih]; omega

theorem blocksAt_append {m : Mem} {a : Nat} {xs ys : List Blk} :
    blocksAt m a (xs ++ ys) ↔
      blocksAt m a xs ∧ blocksAt m (a + 8 * Wsum xs) ys := by
  induction xs generalizing a with
  | nil => simp [blocksAt, Wsum]
  | cons b r ih =>
    simp only [List.cons_append, blocksAt, List.append_eq]
    rw [ih, show a + 8 * Wsum (b :: r) = a + 8 * b.size + 8 * Wsum r by
      rw [show Wsum (b :: r) = b.size + Wsum r from rfl]; ring]
    tauto

theorem blocksAt_agree {m m' : Mem} {a : Nat} {bs : List Blk}
    (hsz : ∀ b ∈ bs, 1 ≤ b.size)
    (hag : ∀ x, a ≤ x + 4 → x + 4 < a + 8 * Wsum bs → m' x = m x)
    (h : blocksAt m a bs) : blocksAt m' a bs := by
  induction bs generalizing a with
  | nil => trivial
  | cons b r ih =>
    obtain ⟨⟨hh, hf⟩, hr⟩ := h
    have hb1 : 1 ≤ b.size := hsz b (by simp)
    refine ⟨⟨?_, ?_⟩, ?_⟩
    · rw [readTag_congr (fun x hx1 hx2 => hag x (by omega)
        (by unfold Wsum; omega))]
      exact hh
    · rw [readTag_congr (fun x hx1 hx2 => hag x (by omega)
        (by unfold Wsum; omega))]
      exact hf
    · exact ih (fun c hc => hsz c (by simp [hc]))
        (fun x hx1 hx2 => hag x (by omega) (by unfold Wsum; omega)) hr

theorem blocksAt_surgery {m m' : Mem} {pre mid mid' post : List Blk}
    (hszpre : ∀ b ∈ pre, 1 ≤ b.size) (hszpost : ∀ b ∈ post, 1 ≤ b.size)
    (hw : Wsum mid' = Wsum mid)
    (hag : ∀ x, x + 4 < 16 + 8 * Wsum pre ∨
      16 + 8 * Wsum pre + 8 * Wsum mid ≤ x + 4 → m' x = m x)
    (h : blocksAt m 16 (pre ++ mid ++ post))
    (hmid : blocksAt m' (16 + 8 * Wsum pre) mid') :
    blocksAt m' 16 (pre ++ mid' ++ post) := by
  rw [List.append_assoc, blocksAt_append, blocksAt_append] at h
  obtain ⟨hpre, hmid0, hpost⟩ := h
  rw [List.append_assoc, blocksAt_append, blocksAt_append]
  refine ⟨?_, hmid, ?_⟩
  · exact blocksAt_agree hszpre (fun x hx1 hx2 => hag x (by omega)) hpre
  · rw [show 16 + 8 * Wsum pre + 8 * Wsum mid' =
      16 + 8 * Wsum pre + 8 * Wsum mid by omega]
    exact blocksAt_agree hszpost
      (fun x hx1 hx2 => hag x (by omega)) hpost

theorem sizesOK_one {bs : List Blk} (h : sizesOK bs) :
    ∀ b ∈ bs, 1 ≤ b.size :=
  fun b hb => by have := h b hb; omega

theorem sizesOK_append {xs ys : List Blk} :
    sizesOK (xs ++ ys) ↔ sizesOK xs ∧ sizesOK ys := by
  unfold sizesOK
  constructor
  · intro h
    exact ⟨fun b hb => h b (List.mem_append_left _ hb),
      fun b hb => h b (List.mem_append_right _ hb)⟩
  · rintro ⟨h1, h2⟩ b hb
    rcases List.mem_append.mp hb with h | h
    · exact h1 b h
    · exact h2 b h

/-! ## The first-fit scan -/

theorem sizeOf_val {m : Mem} {p v : Nat} (h : readTag m (p - 4) = v) :
    sizeOf m p = v - v % 2 := by
  unfold sizeOf header TAG_SIZE
  rw [h]

theorem isAllocated_val {m : Mem} {p v : Nat} (h : readTag m (p - 4) = v) :
    isAllocated m p = decide (v % 2 = 1) := by
  unfold isAllocated header TAG_SIZE
  rw [h]

theorem length_le_Wsum {bs : List Blk} (h : sizesOK bs) :
    bs.length ≤ Wsum bs := by
  induction bs with
  | nil => simp [Wsum]
  | cons b r ih =>
    have hb := h b (by simp)
    have hr := ih (fun c hc => h c (by simp [hc]))
    unfold Wsum
    simp only [List.length_cons]
    omega

theorem Wsum_decomp {bs pre post : List Blk} {blk : Blk}
    (h : bs = pre ++ blk :: post) :
    Wsum bs = Wsum pre + blk.size + Wsum post := by
  subst h
  rw [Wsum_append, show Wsum (blk :: post) = blk.size + Wsum post from rfl]
  omega

theorem findFit_succ (m : Mem) (w p f : Nat) :
    findFit m w p (f + 1) =
      if sizeOf m p ≠ 0 then
        if isAllocated m p then findFit m w (nextBlock m p) f
        else if w ≤ sizeOf m p then some (Sum.inl p)
        else findFit m w (nextBlock m p) f
      else some (Sum.inr p) := rfl

theorem findFit_found {m : Mem} {w a fuel : Nat} {pre post : List Blk}
    {blk : Blk}
    (hb : blocksAt m a (pre ++ blk :: post)) (hsz : sizesOK (pre ++ blk :: post))
    (hfuel : pre.length < fuel)
    (hfirst : ∀ c ∈ pre, c.alloc = true ∨ c.size < w)
    (hfree : blk.alloc = false) (hfits : w ≤ blk.size) :
    findFit m w a fuel = some (Sum.inl (a + 8 * Wsum pre)) := by
  induction pre generalizing a fuel with
  | nil =>
    cases fuel with
    | zero => omega
    | succ f =>
      simp only [List.nil_append] at hb
      obtain ⟨hblk, hrest⟩ := hb
      have he : blk.size % 2 = 0 := (hsz blk (by simp)).2
      have h2 : 2 ≤ blk.size := (hsz blk (by simp)).1
      have hs := sizeOf_of_blockAt hblk he
      have ha := isAllocated_of_blockAt hblk he
      rw [findFit_succ, hs, ha, hfree]
      simp only [Bool.false_eq_true, if_false]
      rw [if_pos (by omega), if_pos hfits]
      simp [Wsum]
  | cons c pre2 ih =>
    cases fuel with
    | zero => simp at hfuel
    | succ f =>
      obtain ⟨hc, hrest⟩ := hb
      have hce : c.size % 2 = 0 := (hsz c (by simp)).2
      have hc2 : 2 ≤ c.size := (hsz c (by simp)).1
      have hs := sizeOf_of_blockAt hc hce
      have ha := isAllocated_of_blockAt hc hce
      have hn := nextBlock_of_blockAt hc hce
      have hszr : sizesOK (pre2 ++ blk :: post) := fun d hd =>
        hsz d (by simp [hd])
      have hfl : pre2.length < f := by simp at hfuel; omega
      have hrec := ih hrest hszr hfl (fun d hd => hfirst d (by simp [hd]))
      have hgoal : a + 8 * Wsum (c :: pre2) =
          a + 8 * c.size + 8 * Wsum pre2 := by
        rw [show Wsum (c :: pre2) = c.size + Wsum pre2 from rfl]
        ring
      rw [findFit_succ, hs, ha, hn, if_pos (by omega), hgoal]
      rcases hfirst c (by simp) with hca | hcs
      · rw [hca]
        simp only [if_true]
        exact hrec
      · cases hca : c.alloc with
        | true =>
          simp only [if_true]
          exact hrec
        | false =>
          simp only [Bool.false_eq_true, if_false]
          rw [if_neg (by omega)]
          exact hrec

theorem findFit_none {m : Mem} {w a fuel : Nat} {bs : List Blk}
    (hb : blocksAt m a bs) (hsz : sizesOK bs)
    (hE : readTag m (a + 8 * Wsum bs - 4) = 1)
    (hfuel : bs.length < fuel)
    (hnone : ∀ c ∈ bs, c.alloc = true ∨ c.size < w) :
    findFit m w a fuel = some (Sum.inr (a + 8 * Wsum bs)) := by
  induction bs generalizing a fuel with
  | nil =>
    cases fuel with
    | zero => omega
    | succ f =>
      simp only [Wsum, Nat.mul_zero, Nat.add_zero] at hE ⊢
      have hs := sizeOf_val hE
      rw [findFit_succ, hs]
      simp
  | cons c r ih =>
    cases fuel with
    | zero => simp at hfuel
    | succ f =>
      obtain ⟨hc, hrest⟩ := hb
      have hce : c.size % 2 = 0 := (hsz c (by simp)).2
      have hc2 : 2 ≤ c.size := (hsz c (by simp)).1
      have hs := sizeOf_of_blockAt hc hce
      have ha := isAllocated_of_blockAt hc hce
      have hn := nextBlock_of_blockAt hc hce
      have hEr : readTag m (a + 8 * c.size + 8 * Wsum r - 4) = 1 := by
        rw [show a + 8 * c.size + 8 * Wsum r =
          a + 8 * Wsum (c :: r) by
            rw [show Wsum (c :: r) = c.size + Wsum r from rfl]; ring]
        exact hE
      have hfl : r.length < f := by simp at hfuel; omega
      have hrec := ih hrest (fun d hd => hsz d (by simp [hd])) hEr
        hfl (fun d hd => hnone d (by simp [hd]))
      have hgoal : a + 8 * Wsum (c :: r) = a + 8 * c.size + 8 * Wsum r := by
        rw [show Wsum (c :: r) = c.size + Wsum r from rfl]
        ring
      rw [findFit_succ, hs, ha, hn, if_pos (by omega), hgoal]
      rcases hnone c (by simp) with hca | hcs
      · rw [hca]
        simp only [if_true]
        exact hrec
      · cases hca : c.alloc with
        | true =>
          simp only [if_true]
          exact hrec
        | false =>
          simp only [Bool.false_eq_true, if_false]
          rw [if_neg (by omega)]
          exact hrec

/-- Every nonempty block list with a free block large enough has a
first such block. -/
theorem exists_first_fit {w : Nat} {bs : List Blk}
    (h : ∃ c ∈ bs, c.alloc = false ∧ w ≤ c.size) :
    ∃ pre blk post, bs = pre ++ blk :: post ∧ blk.alloc = false ∧
      w ≤ blk.size ∧ ∀ c ∈ pre, c.alloc = true ∨ c.size < w := by
  induction bs with
  | nil => simp at h
  | cons c r ih =>
    by_cases hc : c.alloc = false ∧ w ≤ c.size
    · exact ⟨[], c, r, rfl, hc.1, hc.2, by simp⟩
    · have hr : ∃ d ∈ r, d.alloc = false ∧ w ≤ d.size := by
        obtain ⟨d, hd, hdp⟩ := h
        rcases List.mem_cons.mp hd with rfl | hd2
        · exact absurd hdp hc
        · exact ⟨d, hd2, hdp⟩
      obtain ⟨pre, blk, post, hdec, h1, h2, h3⟩ := ih hr
      refine ⟨c :: pre, blk, post, by simp [hdec], h1, h2, ?_⟩
      intro d hd
      rcases List.mem_cons.mp hd with rfl | hd2
      · cases hca : d.alloc with
        | true => exact Or.inl rfl
        | false =>
          right
          by_contra hlt
          exact hc ⟨hca, by omega⟩
      · exact h3 d hd2

/-! ## `actSize` arithmetic and state conveniences -/

theorem actSizeCalc_eq {N : Nat} (h : N + 24 ≤ U32) :
    actSizeCalc N = (N + 23) / 16 * 2 := by
  unfold actSizeCalc OVERHEAD_BYTES DWORD_SIZE
  rw [U32_eq] at h
  rw [U32_eq, Nat.mod_eq_of_lt (by omega), Nat.mod_eq_of_lt (by omega)]

theorem actSizeCalc_even (N : Nat) : actSizeCalc N % 2 = 0 := by
  unfold actSizeCalc
  omega

theorem actSizeCalc_pos {N : Nat} (h0 : 0 < N) (h : N + 24 ≤ U32) :
    2 ≤ actSizeCalc N := by
  rw [actSizeCalc_eq h]
  have h1 : 1 ≤ (N + 23) / 16 := by omega
  omega

theorem actSizeCalc_lt {N : Nat} (h : N + 24 ≤ U32) :
    actSizeCalc N + 1 < U32 := by
  rw [actSizeCalc_eq h]
  rw [U32_eq] at *
  omega

theorem actSizeCalc_payload {N : Nat} (h : N + 24 ≤ U32) :
    N + 8 ≤ 8 * actSizeCalc N := by
  rw [actSizeCalc_eq h]
  omega

theorem bytes_makeBlock {m : Mem} (hB : Bytes m) (p t : Nat) (b : Bool) :
    Bytes (makeBlock m p t b) := by
  simp only [makeBlock]
  exact bytes_writeTag (bytes_writeTag hB _ _) _ _

theorem bytes_toggleBlock {m : Mem} (hB : Bytes m) (p : Nat) :
    Bytes (toggleBlock m p) := by
  simp only [toggleBlock]
  exact bytes_writeTag (bytes_writeTag hB _ _) _ _

theorem WF.size_bound {s : AState} {bs : List Blk} (hWF : WF s bs) :
    8 * Wsum bs + 16 ≤ 2 ^ 31 := by
  have h1 := hWF.brk
  have h2 := hWF.brkcap
  have h3 := hWF.cap
  omega

theorem WF.blockAt_decomp {s : AState} {bs pre post : List Blk} {blk : Blk}
    (hWF : WF s bs) (hdec : bs = pre ++ blk :: post) :
    blockAt s.heap.mem (16 + 8 * Wsum pre) blk := by
  have hb := hWF.blocks
  rw [hdec, blocksAt_append] at hb
  exact hb.2.1

theorem tagV_mk (sz : Nat) (b : Bool) :
    tagV ⟨sz, b⟩ = sz + (if b then 1 else 0) := rfl

/-! ## Memory shape after placement writes -/

theorem exact_mem_spec {m : Mem} {p w : Nat}
    (hwe : w % 2 = 0) (hw2 : 2 ≤ w) (hwlt : w + 1 < U32) (hp : 16 ≤ p) :
    (∀ x, x + 4 < p ∨ p + 8 * w - 4 ≤ x → makeBlock m p w true x = m x) ∧
    blocksAt (makeBlock m p w true) p [⟨w, true⟩] := by
  constructor
  · intro x hx
    exact makeBlock_out hwe (by omega) hwlt (by omega) (by omega)
  · refine ⟨⟨?_, ?_⟩, trivial⟩
    · rw [readTag_makeBlock_header hwe (by omega) hwlt (by omega), tagV_mk]
    · rw [show (8 : Nat) * Blk.size ⟨w, true⟩ = 8 * w from rfl,
        readTag_makeBlock_footer hwe (by omega) hwlt (by omega), tagV_mk]

theorem split_mem_spec {m : Mem} {p w d : Nat}
    (hwe : w % 2 = 0) (hw2 : 2 ≤ w) (hwlt : w + 1 < U32)
    (hde : d % 2 = 0) (hd2 : 2 ≤ d) (hdlt : d + 1 < U32) (hp : 16 ≤ p) :
    (∀ x, x + 4 < p ∨ p + 8 * (w + d) - 4 ≤ x →
      makeBlock (makeBlock m p w true) (p + 8 * w) d false x = m x) ∧
    blocksAt (makeBlock (makeBlock m p w true) (p + 8 * w) d false) p
      [⟨w, true⟩, ⟨d, false⟩] := by
  constructor
  · intro x hx
    rw [makeBlock_out hde (by omega) hdlt (by omega) (by omega),
      makeBlock_out hwe (by omega) hwlt (by omega) (by omega)]
  · refine ⟨⟨?_, ?_⟩, ⟨?_, ?_⟩, trivial⟩
    · rw [readTag_makeBlock_out hde (by omega) hdlt (by omega)
        (by constructor <;> [left; left] <;> omega),
        readTag_makeBlock_header hwe (by omega) hwlt (by omega), tagV_mk]
    · rw [show (8 : Nat) * Blk.size ⟨w, true⟩ = 8 * w from rfl,
        readTag_makeBlock_out hde (by omega) hdlt (by omega)
          (by constructor <;> [left; left] <;> omega),
        readTag_makeBlock_footer hwe (by omega) hwlt (by omega), tagV_mk]
    · rw [show p + 8 * Blk.size ⟨w, true⟩ - 4 = p + 8 * w - 4 from by
        rw [show Blk.size ⟨w, true⟩ = w from rfl]]
      rw [show p + 8 * w - 4 = (p + 8 * w) - 4 from rfl,
        readTag_makeBlock_header hde (by omega) hdlt (by omega), tagV_mk]
    · rw [show p + 8 * Blk.size ⟨w, true⟩ + 8 * Blk.size ⟨d, false⟩ - 8 =
        (p + 8 * w) + 8 * d - 8 from by
          rw [show Blk.size ⟨w, true⟩ = w from rfl,
            show Blk.size ⟨d, false⟩ = d from rfl]]
      rw [readTag_makeBlock_footer hde (by omega) hdlt (by omega), tagV_mk]

/-! ## Placement: first fit with split -/

theorem malloc_fit {s : AState} {bs pre post : List Blk} {blk : Blk} {N : Nat}
    (hWF : WF s bs) (hN : 0 < N) (hOV : N + 24 ≤ U32)
    (hdec : bs = pre ++ blk :: post)
    (hfirst : ∀ c ∈ pre, c.alloc = true ∨ c.size < actSizeCalc N)
    (hfree : blk.alloc = false) (hfits : actSizeCalc N ≤ blk.size) :
    (mm_malloc s N).1 = some (16 + 8 * Wsum pre) ∧
    WF (mm_malloc s N).2
      (pre ++ (if actSizeCalc N < blk.size then
          [⟨actSizeCalc N, true⟩, ⟨blk.size - actSizeCalc N, false⟩]
        else [⟨actSizeCalc N, true⟩]) ++ post) := by
  have hwe : actSizeCalc N % 2 = 0 := actSizeCalc_even N
  have hw2 : 2 ≤ actSizeCalc N := actSizeCalc_pos hN hOV
  have hwlt : actSizeCalc N + 1 < U32 := actSizeCalc_lt hOV
  have hblk : blockAt s.heap.mem (16 + 8 * Wsum pre) blk :=
    hWF.blockAt_decomp hdec
  have hbm : blk ∈ bs := by rw [hdec]; simp
  have hbe : blk.size % 2 = 0 := (hWF.sizes blk hbm).2
  have hb2 : 2 ≤ blk.size := (hWF.sizes blk hbm).1
  have hWd : Wsum bs = Wsum pre + blk.size + Wsum post := Wsum_decomp hdec
  have hbound : 8 * Wsum bs + 16 ≤ 2 ^ 31 := hWF.size_bound
  have hbslt : blk.size + 1 < U32 := by rw [U32_eq]; omega
  have hps : sizeOf s.heap.mem (16 + 8 * Wsum pre) = blk.size :=
    sizeOf_of_blockAt hblk hbe
  have hlen : pre.length < s.heap.brk + 1 := by
    have h1 := length_le_Wsum hWF.sizes
    have h2 : pre.length ≤ bs.length := by rw [hdec]; simp
    have h3 := hWF.brk
    omega
  have hscan : findFit s.heap.mem (actSizeCalc N) 16 (s.heap.brk + 1) =
      some (Sum.inl (16 + 8 * Wsum pre)) :=
    findFit_found (by rw [← hdec]; exact hWF.blocks)
      (by rw [← hdec]; exact hWF.sizes) hlen hfirst hfree hfits
  have hmm : mm_malloc s N = (some (16 + 8 * Wsum pre),
      ⟨⟨(if actSizeCalc N < sizeOf s.heap.mem (16 + 8 * Wsum pre) then
          makeBlock (makeBlock s.heap.mem (16 + 8 * Wsum pre)
              (actSizeCalc N) true)
            (nextBlock (makeBlock s.heap.mem (16 + 8 * Wsum pre)
              (actSizeCalc N) true) (16 + 8 * Wsum pre))
            (sizeOf s.heap.mem (16 + 8 * Wsum pre) - actSizeCalc N) false
        else makeBlock s.heap.mem (16 + 8 * Wsum pre) (actSizeCalc N) true),
        s.heap.brk, s.heap.cap⟩, 16⟩) := by
    simp only [mm_malloc]
    rw [if_neg (by omega), hWF.base, hscan]
  have hh1 : readTag (makeBlock s.heap.mem (16 + 8 * Wsum pre)
      (actSizeCalc N) true) (16 + 8 * Wsum pre - 4) = actSizeCalc N + 1 := by
    have h := readTag_makeBlock_header (m := s.heap.mem)
      (p := 16 + 8 * Wsum pre) (t := actSizeCalc N) (b := true)
      hwe (by omega) hwlt (by omega)
    simpa using h
  have hnb : nextBlock (makeBlock s.heap.mem (16 + 8 * Wsum pre)
      (actSizeCalc N) true) (16 + 8 * Wsum pre) =
      16 + 8 * Wsum pre + 8 * actSizeCalc N := by
    unfold nextBlock WORD_SIZE
    rw [sizeOf_val hh1]
    omega
  rw [hnb, hps] at hmm
  rw [hmm]
  refine ⟨rfl, ?_⟩
  by_cases hsplit : actSizeCalc N < blk.size
  · simp only [if_pos hsplit]
    have hde : (blk.size - actSizeCalc N) % 2 = 0 := by omega
    have hd2 : 2 ≤ blk.size - actSizeCalc N := by omega
    have hdlt : blk.size - actSizeCalc N + 1 < U32 := by
      rw [U32_eq] at *
      omega
    obtain ⟨hag, hmid⟩ := split_mem_spec (m := s.heap.mem)
      (p := 16 + 8 * Wsum pre) (w := actSizeCalc N)
      (d := blk.size - actSizeCalc N) hwe hw2 hwlt hde hd2 hdlt (by omega)
    have hag2 : ∀ x, x + 4 < 16 + 8 * Wsum pre ∨
        16 + 8 * Wsum pre + 8 * blk.size - 4 ≤ x →
        makeBlock (makeBlock s.heap.mem (16 + 8 * Wsum pre)
            (actSizeCalc N) true)
          (16 + 8 * Wsum pre + 8 * actSizeCalc N)
          (blk.size - actSizeCalc N) false x = s.heap.mem x :=
      fun x hx => hag x (by omega)
    have hW2 : Wsum (pre ++ [(⟨actSizeCalc N, true⟩ : Blk),
        ⟨blk.size - actSizeCalc N, false⟩] ++ post) = Wsum bs := by
      rw [Wsum_append, Wsum_append]
      simp only [Wsum]
      omega
    have hbs2 : blocksAt s.heap.mem 16 (pre ++ [blk] ++ post) := by
      have h := hWF.blocks
      rw [hdec] at h
      simpa using h
    refine ⟨bytes_makeBlock (bytes_makeBlock hWF.bytes _ _ _) _ _ _, rfl,
      by simp, ?_, ?_, ?_, ?_, hWF.brkcap, hWF.cap, ?_, ?_⟩
    · rw [readTag_congr (fun x hx1 hx2 => hag2 x (by omega))]
      exact hWF.prologue
    · exact blocksAt_surgery
        (fun c hc => sizesOK_one hWF.sizes c (by rw [hdec]; simp [hc]))
        (fun c hc => sizesOK_one hWF.sizes c (by rw [hdec]; simp [hc]))
        (by simp only [Wsum]; omega)
        (fun x hx => hag2 x (by simp only [Wsum] at hx; omega))
        hbs2 hmid
    · rw [hW2]
      rw [readTag_congr (fun x hx1 hx2 => hag2 x (by omega))]
      exact hWF.epilogue
    · rw [hW2]
      exact hWF.brk
    · intro c hc
      have hc2 : c ∈ pre ∨ c = (⟨actSizeCalc N, true⟩ : Blk) ∨
          c = (⟨blk.size - actSizeCalc N, false⟩ : Blk) ∨ c ∈ post := by
        simpa using hc
      rcases hc2 with h | rfl | rfl | h
      · exact hWF.sizes c (by rw [hdec]; simp [h])
      · exact ⟨hw2, hwe⟩
      · exact ⟨hd2, hde⟩
      · exact hWF.sizes c (by rw [hdec]; simp [h])
    · have hchain := hWF.noadj
      rw [hdec] at hchain
      unfold noAdjFree at hchain ⊢
      rw [List.chain'_append] at hchain
      obtain ⟨hcpre, hcrest, hcbound⟩ := hchain
      rw [List.chain'_cons'] at hcrest
      obtain ⟨hcnext, hcpost⟩ := hcrest
      rw [List.append_assoc, List.chain'_append]
      refine ⟨hcpre, ?_, ?_⟩
      · rw [List.chain'_append]
        refine ⟨List.chain'_cons.mpr ⟨Or.inl rfl, List.chain'_singleton _⟩,
          hcpost, ?_⟩
        intro x hx y hy
        have hy2 := hcnext y hy
        rcases hy2 with h | h
        · rw [hfree] at h
          exact absurd h (by simp)
        · exact Or.inr h
      · intro x hx y hy
        have hyy : (⟨actSizeCalc N, true⟩ : Blk) = y := by simpa using hy
        exact Or.inr (by rw [← hyy])
  · simp only [if_neg hsplit]
    have hweq : actSizeCalc N = blk.size := by omega
    obtain ⟨hag, hmid⟩ := exact_mem_spec (m := s.heap.mem)
      (p := 16 + 8 * Wsum pre) (w := actSizeCalc N) hwe hw2 hwlt (by omega)
    have hag2 : ∀ x, x + 4 < 16 + 8 * Wsum pre ∨
        16 + 8 * Wsum pre + 8 * blk.size - 4 ≤ x →
        makeBlock s.heap.mem (16 + 8 * Wsum pre) (actSizeCalc N) true x =
          s.heap.mem x :=
      fun x hx => hag x (by omega)
    have hW2 : Wsum (pre ++ [(⟨actSizeCalc N, true⟩ : Blk)] ++ post) =
        Wsum bs := by
      rw [Wsum_append, Wsum_append]
      simp only [Wsum]
      omega
    have hbs2 : blocksAt s.heap.mem 16 (pre ++ [blk] ++ post) := by
      have h := hWF.blocks
      rw [hdec] at h
      simpa using h
    refine ⟨bytes_makeBlock hWF.bytes _ _ _, rfl, by simp, ?_, ?_, ?_, ?_,
      hWF.brkcap, hWF.cap, ?_, ?_⟩
    · rw [readTag_congr (fun x hx1 hx2 => hag2 x (by omega))]
      exact hWF.prologue
    · exact blocksAt_surgery
        (fun c hc => sizesOK_one hWF.sizes c (by rw [hdec]; simp [hc]))
        (fun c hc => sizesOK_one hWF.sizes c (by rw [hdec]; simp [hc]))
        (by simp only [Wsum]; omega)
        (fun x hx => hag2 x (by simp only [Wsum] at hx; omega))
        hbs2 hmid
    · rw [hW2]
      rw [readTag_congr (fun x hx1 hx2 => hag2 x (by omega))]
      exact hWF.epilogue
    · rw [hW2]
      exact hWF.brk
    · intro c hc
      have hc2 : c ∈ pre ∨ c = (⟨actSizeCalc N, true⟩ : Blk) ∨ c ∈ post := by
        simpa using hc
      rcases hc2 with h | rfl | h
      · exact hWF.sizes c (by rw [hdec]; simp [h])
      · exact ⟨hw2, hwe⟩
      · exact hWF.sizes c (by rw [hdec]; simp [h])
    · have hchain := hWF.noadj
      rw [hdec] at hchain
      unfold noAdjFree at hchain ⊢
      rw [List.chain'_append] at hchain
      obtain ⟨hcpre, hcrest, hcbound⟩ := hchain
      rw [List.chain'_cons'] at hcrest
      obtain ⟨hcnext, hcpost⟩ := hcrest
      rw [List.append_assoc, List.chain'_append]
      refine ⟨hcpre, ?_, ?_⟩
      · rw [List.chain'_append]
        refine ⟨List.chain'_singleton _, hcpost, ?_⟩
        intro x hx y hy
        have hxx : (⟨actSizeCalc N, true⟩ : Blk) = x := by simpa using hx
        exact Or.inl (by rw [← hxx])
      · intro x hx y hy
        have hyy : (⟨actSizeCalc N, true⟩ : Blk) = y := by simpa using hy
        exact Or.inr (by rw [← hyy])

/-! ## Branch equations for `coalesce`, provider success, failure paths -/

theorem coalesce_bothAlloc {m : Mem} {ptr : Nat}
    (hap : isAllocated m (header ptr) = true)
    (han : isAllocated m (nextBlock m ptr) = true) :
    coalesce m ptr = (ptr, m) := by
  simp only [coalesce, hap, han]
  rfl

theorem coalesce_nextFree {m : Mem} {ptr : Nat}
    (hap : isAllocated m (header ptr) = true)
    (han : isAllocated m (nextBlock m ptr) = false) :
    coalesce m ptr = (ptr, makeBlock m ptr
      ((sizeOf m ptr + sizeOf m (nextBlock m ptr)) % U32) false) := by
  simp only [coalesce, hap, han]
  rfl

theorem coalesce_prevFree {m : Mem} {ptr : Nat}
    (hap : isAllocated m (header ptr) = false)
    (han : isAllocated m (nextBlock m ptr) = true) :
    coalesce m ptr = (prevBlock m ptr, makeBlock m (prevBlock m ptr)
      ((sizeOf m ptr + sizeOf m (header ptr)) % U32) false) := by
  simp only [coalesce, hap, han]
  rfl

theorem coalesce_bothFree {m : Mem} {ptr : Nat}
    (hap : isAllocated m (header ptr) = false)
    (han : isAllocated m (nextBlock m ptr) = false) :
    coalesce m ptr = (prevBlock m ptr, makeBlock m (prevBlock m ptr)
      ((sizeOf m ptr + (sizeOf m (header ptr) + sizeOf m (nextBlock m ptr)))
        % U32) false) := by
  simp only [coalesce, hap, han]
  rfl

theorem mem_sbrk_pos {h : Heap} {n : Nat} (hc : h.brk + n ≤ h.cap) :
    mem_sbrk h ((n : Nat) : Int) =
      some (h.brk, ⟨h.mem, h.brk + n, h.cap⟩) := by
  unfold mem_sbrk
  rw [if_neg (by omega), if_neg (by simp; omega)]
  simp

theorem mem_sbrk_fail {h : Heap} {n : Nat} (hc : h.cap < h.brk + n) :
    mem_sbrk h ((n : Nat) : Int) = none := by
  unfold mem_sbrk
  rw [if_neg (by omega)]
  rw [if_pos (by simp; omega)]

theorem mm_malloc_none {s : AState} {N : Nat}
    (h : (mm_malloc s N).1 = none) : (mm_malloc s N).2 = s := by
  by_cases h0 : N = 0
  · simp only [mm_malloc, if_pos h0]
  · simp only [mm_malloc, if_neg h0] at h ⊢
    cases hf : findFit s.heap.mem (actSizeCalc N) s.heapBase
        (s.heap.brk + 1) with
    | none => rfl
    | some v =>
      cases v with
      | inl p =>
        rw [hf] at h
        exact absurd h (by simp)
      | inr p =>
        rw [hf] at h
        replace h : (match extendHeap s p (actSizeCalc N) with
            | none => (none, s)
            | some (p2, s2) =>
              (some p2, ⟨⟨makeBlock s2.heap.mem p2 (actSizeCalc N) true,
                s2.heap.brk, s2.heap.cap⟩, s2.heapBase⟩)).1 =
            (none : Option Nat) := h
        show (match extendHeap s p (actSizeCalc N) with
            | none => (none, s)
            | some (p2, s2) =>
              (some p2, ⟨⟨makeBlock s2.heap.mem p2 (actSizeCalc N) true,
                s2.heap.brk, s2.heap.cap⟩, s2.heapBase⟩)).2 = s
        cases he : extendHeap s p (actSizeCalc N) with
        | none => rfl
        | some r =>
          obtain ⟨p2, s2⟩ := r
          rw [he] at h
          exact absurd h (by simp)

/-! ## Heap extension -/

theorem extendHeap_sbrk_ok {s : AState} {p w asz : Nat}
    (hasz : (if isAllocated s.heap.mem (prevBlock s.heap.mem p) then w
      else (w + U32 - sizeOf s.heap.mem (prevBlock s.heap.mem p)) % U32) =
      asz)
    (h31 : 8 * asz < 2147483648)
    (hcap : s.heap.brk + 8 * asz ≤ s.heap.cap) :
    extendHeap s p w = some
      ((coalesce (writeTag (makeBlock s.heap.mem s.heap.brk asz false)
          (nextHeader (makeBlock s.heap.mem s.heap.brk asz false)
            s.heap.brk) 1) s.heap.brk).1,
        ⟨⟨(coalesce (writeTag (makeBlock s.heap.mem s.heap.brk asz false)
          (nextHeader (makeBlock s.heap.mem s.heap.brk asz false)
            s.heap.brk) 1) s.heap.brk).2,
        s.heap.brk + 8 * asz, s.heap.cap⟩, s.heapBase⟩) := by
  simp only [extendHeap]
  rw [hasz]
  rw [show asz * WORD_SIZE % U32 = 8 * asz from by
    unfold WORD_SIZE
    rw [U32_eq]
    omega]
  rw [if_pos h31, mem_sbrk_pos hcap]

theorem extendHeap_sbrk_fail {s : AState} {p w asz : Nat}
    (hasz : (if isAllocated s.heap.mem (prevBlock s.heap.mem p) then w
      else (w + U32 - sizeOf s.heap.mem (prevBlock s.heap.mem p)) % U32) =
      asz)
    (h31 : 8 * asz < 2147483648)
    (hcap : s.heap.cap < s.heap.brk + 8 * asz) :
    extendHeap s p w = none := by
  simp only [extendHeap]
  rw [hasz]
  rw [show asz * WORD_SIZE % U32 = 8 * asz from by
    unfold WORD_SIZE
    rw [U32_eq]
    omega]
  rw [if_pos h31, mem_sbrk_fail hcap]

theorem extend_spec_alloc {s : AState} {bs init2 : List Blk}
    {lastb : Blk} {w : Nat}
    (hWF : WF s bs) (hdec : bs = init2 ++ [lastb]) (hla : lastb.alloc = true)
    (hwe : w % 2 = 0) (hw2 : 2 ≤ w) (h31 : 8 * w < 2147483648)
    (hcap : s.heap.brk + 8 * w ≤ s.heap.cap) :
    ∃ m2, extendHeap s (16 + 8 * Wsum bs) w =
      some (16 + 8 * Wsum bs,
        ⟨⟨m2, 16 + 8 * Wsum bs + 8 * w, s.heap.cap⟩, s.heapBase⟩) ∧
      (∀ x, x + 4 < 16 + 8 * Wsum bs → m2 x = s.heap.mem x) ∧
      blocksAt m2 (16 + 8 * Wsum bs) [⟨w, false⟩] ∧
      readTag m2 (16 + 8 * Wsum bs + 8 * w - 4) = 1 ∧
      Bytes m2 := by
  have hwlt : w + 1 < U32 := by rw [U32_eq]; omega
  have hW : Wsum bs = Wsum init2 + lastb.size := by
    rw [Wsum_decomp hdec]
    simp [Wsum]
  have hlb : blockAt s.heap.mem (16 + 8 * Wsum init2) lastb :=
    hWF.blockAt_decomp hdec
  have hlm : lastb ∈ bs := by rw [hdec]; simp
  have hle : lastb.size % 2 = 0 := (hWF.sizes lastb hlm).2
  have hl2 : 2 ≤ lastb.size := (hWF.sizes lastb hlm).1
  have hfoot2 : readTag s.heap.mem (16 + 8 * Wsum bs - 4 - 4) = tagV lastb := by
    have h := hlb.2
    rw [show 16 + 8 * Wsum init2 + 8 * lastb.size - 8 =
      16 + 8 * Wsum bs - 4 - 4 from by omega] at h
    exact h
  have htlb : tagV lastb % 2 = 1 := by
    unfold tagV
    rw [hla]
    simp
    omega
  have hszE4 : sizeOf s.heap.mem (16 + 8 * Wsum bs - 4) = lastb.size := by
    rw [sizeOf_val hfoot2]
    unfold tagV
    rw [hla]
    simp
    omega
  have hpb : prevBlock s.heap.mem (16 + 8 * Wsum bs) = 16 + 8 * Wsum init2 := by
    unfold prevBlock header TAG_SIZE WORD_SIZE
    rw [hszE4]
    omega
  have hprevAlloc : isAllocated s.heap.mem
      (prevBlock s.heap.mem (16 + 8 * Wsum bs)) = true := by
    rw [hpb, isAllocated_of_blockAt hlb hle, hla]
  have hasz : (if isAllocated s.heap.mem
        (prevBlock s.heap.mem (16 + 8 * Wsum bs)) then w
      else (w + U32 - sizeOf s.heap.mem
        (prevBlock s.heap.mem (16 + 8 * Wsum bs))) % U32) = w := by
    rw [hprevAlloc]
    simp
  have h1 := extendHeap_sbrk_ok hasz h31 hcap
  rw [hWF.brk] at h1
  have hh1 : readTag (makeBlock s.heap.mem (16 + 8 * Wsum bs) w false) (16 + 8 * Wsum bs - 4) = w := by
    have h := readTag_makeBlock_header (m := s.heap.mem)
      (p := 16 + 8 * Wsum bs) (t := w) (b := false) hwe (by omega) hwlt (by omega)
    simpa using h
  have hsm1 : sizeOf (makeBlock s.heap.mem (16 + 8 * Wsum bs) w false) (16 + 8 * Wsum bs) = w := by
    rw [sizeOf_val hh1]
    omega
  have hnh : nextHeader (makeBlock s.heap.mem (16 + 8 * Wsum bs) w false) (16 + 8 * Wsum bs) = 16 + 8 * Wsum bs + 8 * w - 4 := by
    unfold nextHeader nextBlock TAG_SIZE WORD_SIZE
    rw [hsm1]
    omega
  rw [hnh] at h1
  have hM2H : readTag (writeTag (makeBlock s.heap.mem (16 + 8 * Wsum bs) w false) (16 + 8 * Wsum bs + 8 * w - 4) 1) (16 + 8 * Wsum bs - 4) = w := by
    rw [readTag_writeTag_out (by omega)]
    exact hh1
  have hM2F : readTag (writeTag (makeBlock s.heap.mem (16 + 8 * Wsum bs) w false) (16 + 8 * Wsum bs + 8 * w - 4) 1) (16 + 8 * Wsum bs + 8 * w - 8) = w := by
    rw [readTag_writeTag_out (by omega)]
    have h := readTag_makeBlock_footer (m := s.heap.mem)
      (p := 16 + 8 * Wsum bs) (t := w) (b := false) hwe (by omega) hwlt (by omega)
    simpa using h
  have hM2E : readTag (writeTag (makeBlock s.heap.mem (16 + 8 * Wsum bs) w false) (16 + 8 * Wsum bs + 8 * w - 4) 1) (16 + 8 * Wsum bs + 8 * w - 4) = 1 := by
    rw [readTag_writeTag_self, U32_eq]
  have hM2prev : readTag (writeTag (makeBlock s.heap.mem (16 + 8 * Wsum bs) w false) (16 + 8 * Wsum bs + 8 * w - 4) 1) (16 + 8 * Wsum bs - 4 - 4) = tagV lastb := by
    rw [readTag_writeTag_out (by omega)]
    rw [readTag_makeBlock_out hwe (by omega) hwlt (by omega)
      (by constructor <;> left <;> omega)]
    exact hfoot2
  have hap2 : isAllocated (writeTag (makeBlock s.heap.mem (16 + 8 * Wsum bs) w false) (16 + 8 * Wsum bs + 8 * w - 4) 1) (header (16 + 8 * Wsum bs)) = true := by
    unfold isAllocated header TAG_SIZE
    rw [hM2prev]
    simpa using htlb
  have hsm2 : sizeOf (writeTag (makeBlock s.heap.mem (16 + 8 * Wsum bs) w false) (16 + 8 * Wsum bs + 8 * w - 4) 1) (16 + 8 * Wsum bs) = w := by
    rw [sizeOf_val hM2H]
    omega
  have hnb2 : nextBlock (writeTag (makeBlock s.heap.mem (16 + 8 * Wsum bs) w false) (16 + 8 * Wsum bs + 8 * w - 4) 1) (16 + 8 * Wsum bs) = 16 + 8 * Wsum bs + 8 * w := by
    unfold nextBlock WORD_SIZE
    rw [hsm2]
    omega
  have han2 : isAllocated (writeTag (makeBlock s.heap.mem (16 + 8 * Wsum bs) w false) (16 + 8 * Wsum bs + 8 * w - 4) 1) (nextBlock (writeTag (makeBlock s.heap.mem (16 + 8 * Wsum bs) w false) (16 + 8 * Wsum bs + 8 * w - 4) 1) (16 + 8 * Wsum bs)) = true := by
    rw [hnb2]
    unfold isAllocated header TAG_SIZE
    rw [hM2E]
    rfl
  rw [coalesce_bothAlloc hap2 han2] at h1
  refine ⟨writeTag (makeBlock s.heap.mem (16 + 8 * Wsum bs) w false) (16 + 8 * Wsum bs + 8 * w - 4) 1, h1, ?_, ?_, hM2E, ?_⟩
  · intro x hx
    rw [writeTag_out (by omega),
      makeBlock_out hwe (by omega) hwlt (by omega) (by omega)]
  · refine ⟨⟨?_, ?_⟩, trivial⟩
    · rw [hM2H, tagV_mk]
      simp
    · rw [show 16 + 8 * Wsum bs + 8 * Blk.size ⟨w, false⟩ - 8 = 16 + 8 * Wsum bs + 8 * w - 8 from by
        rw [show Blk.size ⟨w, false⟩ = w from rfl]]
      rw [hM2F, tagV_mk]
      simp
  · exact bytes_writeTag (bytes_makeBlock hWF.bytes _ _ _) _ _

theorem extend_spec_free {s : AState} {bs init2 : List Blk}
    {lastb : Blk} {w : Nat}
    (hWF : WF s bs) (hdec : bs = init2 ++ [lastb])
    (hla : lastb.alloc = false) (hls : lastb.size < w)
    (hwe : w % 2 = 0) (hw2 : 2 ≤ w) (h31 : 8 * w < 2147483648)
    (hcap : s.heap.brk + 8 * (w - lastb.size) ≤ s.heap.cap) :
    ∃ m2, extendHeap s (16 + 8 * Wsum bs) w =
      some (16 + 8 * Wsum init2,
        ⟨⟨m2, 16 + 8 * Wsum bs + 8 * (w - lastb.size), s.heap.cap⟩, s.heapBase⟩) ∧
      (∀ x, x + 4 < 16 + 8 * Wsum init2 → m2 x = s.heap.mem x) ∧
      blocksAt m2 (16 + 8 * Wsum init2) [⟨w, false⟩] ∧
      readTag m2 (16 + 8 * Wsum init2 + 8 * w - 4) = 1 ∧
      Bytes m2 := by
  have hwlt : w + 1 < U32 := by rw [U32_eq]; omega
  have hW : Wsum bs = Wsum init2 + lastb.size := by
    rw [Wsum_decomp hdec]
    simp [Wsum]
  have hlb : blockAt s.heap.mem (16 + 8 * Wsum init2) lastb :=
    hWF.blockAt_decomp hdec
  have hlm : lastb ∈ bs := by rw [hdec]; simp
  have hle : lastb.size % 2 = 0 := (hWF.sizes lastb hlm).2
  have hl2 : 2 ≤ lastb.size := (hWF.sizes lastb hlm).1
  have hae : (w - lastb.size) % 2 = 0 := by omega
  have ha2 : 2 ≤ (w - lastb.size) := by omega
  have halt : (w - lastb.size) + 1 < U32 := by rw [U32_eq]; omega
  have hfoot2 : readTag s.heap.mem (16 + 8 * Wsum bs - 4 - 4) = tagV lastb := by
    have h := hlb.2
    rw [show 16 + 8 * Wsum init2 + 8 * lastb.size - 8 =
      16 + 8 * Wsum bs - 4 - 4 from by omega] at h
    exact h
  have htlb0 : tagV lastb % 2 = 0 := by
    unfold tagV
    rw [hla]
    simp
    omega
  have htlbv : tagV lastb = lastb.size := by
    unfold tagV
    rw [hla]
    simp
  have hszE4 : sizeOf s.heap.mem (16 + 8 * Wsum bs - 4) = lastb.size := by
    rw [sizeOf_val hfoot2, htlbv]
    omega
  have hpb : prevBlock s.heap.mem (16 + 8 * Wsum bs) = 16 + 8 * Wsum init2 := by
    unfold prevBlock header TAG_SIZE WORD_SIZE
    rw [hszE4]
    omega
  have hprevAlloc : isAllocated s.heap.mem
      (prevBlock s.heap.mem (16 + 8 * Wsum bs)) = false := by
    rw [hpb, isAllocated_of_blockAt hlb hle, hla]
  have hprevsz : sizeOf s.heap.mem (prevBlock s.heap.mem (16 + 8 * Wsum bs)) =
      lastb.size := by
    rw [hpb]
    exact sizeOf_of_blockAt hlb hle
  have hasz : (if isAllocated s.heap.mem
        (prevBlock s.heap.mem (16 + 8 * Wsum bs)) then w
      else (w + U32 - sizeOf s.heap.mem
        (prevBlock s.heap.mem (16 + 8 * Wsum bs))) % U32) = (w - lastb.size) := by
    rw [hprevAlloc, hprevsz]
    simp only [Bool.false_eq_true, if_false]
    rw [U32_eq] at *
    omega
  have h1 := extendHeap_sbrk_ok hasz (by omega) hcap
  rw [hWF.brk] at h1
  have hh1 : readTag (makeBlock s.heap.mem (16 + 8 * Wsum bs) (w - lastb.size) false) (16 + 8 * Wsum bs - 4) = (w - lastb.size) := by
    have h := readTag_makeBlock_header (m := s.heap.mem)
      (p := 16 + 8 * Wsum bs) (t := (w - lastb.size)) (b := false) hae (by omega) halt (by omega)
    simpa using h
  have hsm1 : sizeOf (makeBlock s.heap.mem (16 + 8 * Wsum bs) (w - lastb.size) false) (16 + 8 * Wsum bs) = (w - lastb.size) := by
    rw [sizeOf_val hh1]
    omega
  have hnh : nextHeader (makeBlock s.heap.mem (16 + 8 * Wsum bs) (w - lastb.size) false) (16 + 8 * Wsum bs) = 16 + 8 * Wsum bs + 8 * (w - lastb.size) - 4 := by
    unfold nextHeader nextBlock TAG_SIZE WORD_SIZE
    rw [hsm1]
    omega
  rw [hnh] at h1
  have hM2H : readTag (writeTag (makeBlock s.heap.mem (16 + 8 * Wsum bs) (w - lastb.size) false) (16 + 8 * Wsum bs + 8 * (w - lastb.size) - 4) 1) (16 + 8 * Wsum bs - 4) = (w - lastb.size) := by
    rw [readTag_writeTag_out (by omega)]
    exact hh1
  have hM2E : readTag (writeTag (makeBlock s.heap.mem (16 + 8 * Wsum bs) (w - lastb.size) false) (16 + 8 * Wsum bs + 8 * (w - lastb.size) - 4) 1) (16 + 8 * Wsum bs + 8 * (w - lastb.size) - 4) = 1 := by
    rw [readTag_writeTag_self, U32_eq]
  have hM2prev : readTag (writeTag (makeBlock s.heap.mem (16 + 8 * Wsum bs) (w - lastb.size) false) (16 + 8 * Wsum bs + 8 * (w - lastb.size) - 4) 1) (16 + 8 * Wsum bs - 4 - 4) = tagV lastb := by
    rw [readTag_writeTag_out (by omega)]
    rw [readTag_makeBlock_out hae (by omega) halt (by omega)
      (by constructor <;> left <;> omega)]
    exact hfoot2
  have hap2 : isAllocated (writeTag (makeBlock s.heap.mem (16 + 8 * Wsum bs) (w - lastb.size) false) (16 + 8 * Wsum bs + 8 * (w - lastb.size) - 4) 1) (header (16 + 8 * Wsum bs)) = false := by
    unfold isAllocated header TAG_SIZE
    rw [hM2prev]
    simpa using htlb0
  have hsm2 : sizeOf (writeTag (makeBlock s.heap.mem (16 + 8 * Wsum bs) (w - lastb.size) false) (16 + 8 * Wsum bs + 8 * (w - lastb.size) - 4) 1) (16 + 8 * Wsum bs) = (w - lastb.size) := by
    rw [sizeOf_val hM2H]
    omega
  have hnb2 : nextBlock (writeTag (makeBlock s.heap.mem (16 + 8 * Wsum bs) (w - lastb.size) false) (16 + 8 * Wsum bs + 8 * (w - lastb.size) - 4) 1) (16 + 8 * Wsum bs) = 16 + 8 * Wsum bs + 8 * (w - lastb.size) := by
    unfold nextBlock WORD_SIZE
    rw [hsm2]
    omega
  have han2 : isAllocated (writeTag (makeBlock s.heap.mem (16 + 8 * Wsum bs) (w - lastb.size) false) (16 + 8 * Wsum bs + 8 * (w - lastb.size) - 4) 1) (nextBlock (writeTag (makeBlock s.heap.mem (16 + 8 * Wsum bs) (w - lastb.size) false) (16 + 8 * Wsum bs + 8 * (w - lastb.size) - 4) 1) (16 + 8 * Wsum bs)) = true := by
    rw [hnb2]
    unfold isAllocated header TAG_SIZE
    rw [hM2E]
    rfl
  rw [coalesce_prevFree hap2 han2] at h1
  have hszh : sizeOf (writeTag (makeBlock s.heap.mem (16 + 8 * Wsum bs) (w - lastb.size) false) (16 + 8 * Wsum bs + 8 * (w - lastb.size) - 4) 1) (header (16 + 8 * Wsum bs)) = lastb.size := by
    unfold header TAG_SIZE
    rw [sizeOf_val hM2prev, htlbv]
    omega
  have hpb2 : prevBlock (writeTag (makeBlock s.heap.mem (16 + 8 * Wsum bs) (w - lastb.size) false) (16 + 8 * Wsum bs + 8 * (w - lastb.size) - 4) 1) (16 + 8 * Wsum bs) = 16 + 8 * Wsum init2 := by
    unfold prevBlock WORD_SIZE
    rw [hszh]
    omega
  have hsum : (sizeOf (writeTag (makeBlock s.heap.mem (16 + 8 * Wsum bs) (w - lastb.size) false) (16 + 8 * Wsum bs + 8 * (w - lastb.size) - 4) 1) (16 + 8 * Wsum bs) + sizeOf (writeTag (makeBlock s.heap.mem (16 + 8 * Wsum bs) (w - lastb.size) false) (16 + 8 * Wsum bs + 8 * (w - lastb.size) - 4) 1) (header (16 + 8 * Wsum bs))) % U32 =
      w := by
    rw [hsm2, hszh, U32_eq]
    rw [U32_eq] at hwlt
    omega
  rw [hpb2, hsum] at h1
  have hM3H : readTag (makeBlock (writeTag (makeBlock s.heap.mem (16 + 8 * Wsum bs) (w - lastb.size) false) (16 + 8 * Wsum bs + 8 * (w - lastb.size) - 4) 1) (16 + 8 * Wsum init2) w false) (16 + 8 * Wsum init2 - 4) = w := by
    have h := readTag_makeBlock_header (m := writeTag (makeBlock s.heap.mem (16 + 8 * Wsum bs) (w - lastb.size) false) (16 + 8 * Wsum bs + 8 * (w - lastb.size) - 4) 1)
      (p := 16 + 8 * Wsum init2) (t := w) (b := false) hwe (by omega) hwlt (by omega)
    simpa using h
  have hM3F : readTag (makeBlock (writeTag (makeBlock s.heap.mem (16 + 8 * Wsum bs) (w - lastb.size) false) (16 + 8 * Wsum bs + 8 * (w - lastb.size) - 4) 1) (16 + 8 * Wsum init2) w false) (16 + 8 * Wsum init2 + 8 * w - 8) = w := by
    have h := readTag_makeBlock_footer (m := writeTag (makeBlock s.heap.mem (16 + 8 * Wsum bs) (w - lastb.size) false) (16 + 8 * Wsum bs + 8 * (w - lastb.size) - 4) 1)
      (p := 16 + 8 * Wsum init2) (t := w) (b := false) hwe (by omega) hwlt (by omega)
    simpa using h
  have hM3E : readTag (makeBlock (writeTag (makeBlock s.heap.mem (16 + 8 * Wsum bs) (w - lastb.size) false) (16 + 8 * Wsum bs + 8 * (w - lastb.size) - 4) 1) (16 + 8 * Wsum init2) w false) (16 + 8 * Wsum init2 + 8 * w - 4) = 1 := by
    rw [readTag_makeBlock_out hwe (by omega) hwlt (by omega)
      (by constructor <;> right <;> omega)]
    rw [show 16 + 8 * Wsum init2 + 8 * w - 4 = 16 + 8 * Wsum bs + 8 * (w - lastb.size) - 4 from by omega]
    exact hM2E
  refine ⟨makeBlock (writeTag (makeBlock s.heap.mem (16 + 8 * Wsum bs) (w - lastb.size) false) (16 + 8 * Wsum bs + 8 * (w - lastb.size) - 4) 1) (16 + 8 * Wsum init2) w false, h1, ?_, ?_, hM3E, ?_⟩
  · intro x hx
    rw [makeBlock_out hwe (by omega) hwlt (by omega) (by omega),
      writeTag_out (by omega),
      makeBlock_out hae (by omega) halt (by omega) (by omega)]
  · refine ⟨⟨?_, ?_⟩, trivial⟩
    · rw [hM3H, tagV_mk]
      simp
    · rw [show 16 + 8 * Wsum init2 + 8 * Blk.size ⟨w, false⟩ - 8 = 16 + 8 * Wsum init2 + 8 * w - 8 from by
        rw [show Blk.size ⟨w, false⟩ = w from rfl]]
      rw [hM3F, tagV_mk]
      simp
  · exact bytes_makeBlock (bytes_writeTag
      (bytes_makeBlock hWF.bytes _ _ _) _ _) _ _ _

theorem malloc_nofit {s : AState} {bs init2 : List Blk} {lastb : Blk}
    {N : Nat}
    (hWF : WF s bs) (hN : 0 < N) (hOV : N + 24 ≤ U32)
    (hdec : bs = init2 ++ [lastb])
    (hnofit : ∀ c ∈ bs, c.alloc = true ∨ c.size < actSizeCalc N)
    (h31 : 8 * actSizeCalc N < 2147483648)
    (hcap : s.heap.brk +
      8 * (actSizeCalc N - cond lastb.alloc 0 lastb.size) ≤ s.heap.cap) :
    (mm_malloc s N).1 =
      some (cond lastb.alloc (16 + 8 * Wsum bs) (16 + 8 * Wsum init2)) ∧
    (mm_malloc s N).2.heap.brk = s.heap.brk +
      8 * (actSizeCalc N - cond lastb.alloc 0 lastb.size) ∧
    WF (mm_malloc s N).2
      ((cond lastb.alloc bs init2) ++ [⟨actSizeCalc N, true⟩]) := by
  have hwe : actSizeCalc N % 2 = 0 := actSizeCalc_even N
  have hw2 : 2 ≤ actSizeCalc N := actSizeCalc_pos hN hOV
  have hwlt : actSizeCalc N + 1 < U32 := actSizeCalc_lt hOV
  have hlm : lastb ∈ bs := by rw [hdec]; simp
  have hle : lastb.size % 2 = 0 := (hWF.sizes lastb hlm).2
  have hl2 : 2 ≤ lastb.size := (hWF.sizes lastb hlm).1
  have hW : Wsum bs = Wsum init2 + lastb.size := by
    rw [Wsum_decomp hdec]
    simp [Wsum]
  have hlen : bs.length < s.heap.brk + 1 := by
    have h1 := length_le_Wsum hWF.sizes
    have h3 := hWF.brk
    omega
  have hscan : findFit s.heap.mem (actSizeCalc N) 16 (s.heap.brk + 1) =
      some (Sum.inr (16 + 8 * Wsum bs)) := by
    have hE : readTag s.heap.mem (16 + 8 * Wsum bs - 4) = 1 := by
      rw [show 16 + 8 * Wsum bs - 4 = 12 + 8 * Wsum bs from by omega]
      exact hWF.epilogue
    exact findFit_none hWF.blocks hWF.sizes hE hlen hnofit
  have hmm : mm_malloc s N =
      (match extendHeap s (16 + 8 * Wsum bs) (actSizeCalc N) with
      | none => (none, s)
      | some (p2, s2) =>
        (some p2, ⟨⟨makeBlock s2.heap.mem p2 (actSizeCalc N) true,
          s2.heap.brk, s2.heap.cap⟩, s2.heapBase⟩)) := by
    simp only [mm_malloc]
    rw [if_neg (by omega), hWF.base, hscan]
  cases hla : lastb.alloc with
  | true =>
    have hcap2 : s.heap.brk + 8 * actSizeCalc N ≤ s.heap.cap := by
      simpa [hla] using hcap
    obtain ⟨m2, he, hag, hblocks, hepi, hbytes⟩ :=
      extend_spec_alloc hWF hdec hla hwe hw2 h31 hcap2
    have hmm2 : mm_malloc s N = (some (16 + 8 * Wsum bs),
        ⟨⟨makeBlock m2 (16 + 8 * Wsum bs) (actSizeCalc N) true,
          16 + 8 * Wsum bs + 8 * actSizeCalc N, s.heap.cap⟩, s.heapBase⟩) := by
      rw [hmm, he]
    have hW3 : Wsum (bs ++ [(⟨actSizeCalc N, true⟩ : Blk)]) =
        Wsum bs + actSizeCalc N := by
      rw [Wsum_append]
      simp [Wsum]
    refine ⟨by rw [hmm2]; rfl, ?_, ?_⟩
    · rw [hmm2]
      simp only [Bool.cond_true, Nat.sub_zero]
      rw [hWF.brk]
    · rw [hmm2]
      show WF (⟨⟨makeBlock m2 (16 + 8 * Wsum bs) (actSizeCalc N) true,
        16 + 8 * Wsum bs + 8 * actSizeCalc N, s.heap.cap⟩, s.heapBase⟩ : AState)
        (bs ++ [⟨actSizeCalc N, true⟩])
      refine ⟨bytes_makeBlock hbytes _ _ _, hWF.base, by simp, ?_, ?_, ?_,
        ?_, ?_, hWF.cap, ?_, ?_⟩
      · show readTag (makeBlock m2 (16 + 8 * Wsum bs) (actSizeCalc N) true) 8 % 2 = 1
        rw [readTag_congr (fun x hx1 hx2 => by
          rw [makeBlock_out hwe (by omega) hwlt (by omega) (by omega),
            hag x (by omega)])]
        exact hWF.prologue
      · show blocksAt (makeBlock m2 (16 + 8 * Wsum bs) (actSizeCalc N) true) 16
          (bs ++ [⟨actSizeCalc N, true⟩])
        rw [blocksAt_append]
        refine ⟨?_, ⟨?_, ?_⟩, trivial⟩
        · exact blocksAt_agree (sizesOK_one hWF.sizes)
            (fun x hx1 hx2 => by
              rw [makeBlock_out hwe (by omega) hwlt (by omega) (by omega),
                hag x (by omega)]) hWF.blocks
        · rw [readTag_makeBlock_header hwe (by omega) hwlt (by omega),
            tagV_mk]
        · rw [show 16 + 8 * Wsum bs + 8 * Blk.size ⟨actSizeCalc N, true⟩ - 8 =
            16 + 8 * Wsum bs + 8 * actSizeCalc N - 8 from by
              rw [show Blk.size ⟨actSizeCalc N, true⟩ = actSizeCalc N
                from rfl]]
          rw [readTag_makeBlock_footer hwe (by omega) hwlt (by omega),
            tagV_mk]
      · show readTag (makeBlock m2 (16 + 8 * Wsum bs) (actSizeCalc N) true)
          (12 + 8 * Wsum (bs ++ [⟨actSizeCalc N, true⟩])) = 1
        rw [hW3, show 12 + 8 * (Wsum bs + actSizeCalc N) =
          16 + 8 * Wsum bs + 8 * actSizeCalc N - 4 from by omega]
        rw [readTag_makeBlock_out hwe (by omega) hwlt (by omega)
          (by constructor <;> right <;> omega)]
        exact hepi
      · show 16 + 8 * Wsum bs + 8 * actSizeCalc N =
          16 + 8 * Wsum (bs ++ [⟨actSizeCalc N, true⟩])
        rw [hW3]
        omega
      · show 16 + 8 * Wsum bs + 8 * actSizeCalc N ≤ s.heap.cap
        exact hWF.brk ▸ hcap2
      · intro c hc
        have hc2 : c ∈ bs ∨ c = (⟨actSizeCalc N, true⟩ : Blk) := by
          simpa using hc
        rcases hc2 with h | rfl
        · exact hWF.sizes c h
        · exact ⟨hw2, hwe⟩
      · unfold noAdjFree
        rw [List.chain'_append]
        refine ⟨hWF.noadj, List.chain'_singleton _, ?_⟩
        intro x hx y hy
        have hyy : (⟨actSizeCalc N, true⟩ : Blk) = y := by simpa using hy
        exact Or.inr (by rw [← hyy])
  | false =>
    have hls : lastb.size < actSizeCalc N := by
      rcases hnofit lastb hlm with h | h
      · rw [hla] at h
        exact absurd h (by simp)
      · exact h
    have hcap2 : s.heap.brk + 8 * (actSizeCalc N - lastb.size) ≤
        s.heap.cap := by
      simpa [hla] using hcap
    obtain ⟨m2, he, hag, hblocks, hepi, hbytes⟩ :=
      extend_spec_free hWF hdec hla hls hwe hw2 h31 hcap2
    have hmm2 : mm_malloc s N = (some (16 + 8 * Wsum init2),
        ⟨⟨makeBlock m2 (16 + 8 * Wsum init2) (actSizeCalc N) true,
          16 + 8 * Wsum bs + 8 * (actSizeCalc N - lastb.size), s.heap.cap⟩,
          s.heapBase⟩) := by
      rw [hmm, he]
    have hW3 : Wsum (init2 ++ [(⟨actSizeCalc N, true⟩ : Blk)]) =
        Wsum init2 + actSizeCalc N := by
      rw [Wsum_append]
      simp [Wsum]
    have hbsplit : blocksAt s.heap.mem 16 init2 := by
      have h := hWF.blocks
      rw [hdec, blocksAt_append] at h
      exact h.1
    have hchain2 : List.Chain'
        (fun a b => a.alloc = true ∨ b.alloc = true) init2 := by
      have h := hWF.noadj
      unfold noAdjFree at h
      rw [hdec, List.chain'_append] at h
      exact h.1
    refine ⟨by rw [hmm2]; rfl, ?_, ?_⟩
    · rw [hmm2]
      simp only [Bool.cond_false]
      rw [hWF.brk]
    · rw [hmm2]
      show WF (⟨⟨makeBlock m2 (16 + 8 * Wsum init2) (actSizeCalc N) true,
        16 + 8 * Wsum bs + 8 * (actSizeCalc N - lastb.size), s.heap.cap⟩,
        s.heapBase⟩ : AState) (init2 ++ [⟨actSizeCalc N, true⟩])
      refine ⟨bytes_makeBlock hbytes _ _ _, hWF.base, by simp, ?_, ?_, ?_,
        ?_, ?_, hWF.cap, ?_, ?_⟩
      · show readTag (makeBlock m2 (16 + 8 * Wsum init2) (actSizeCalc N) true) 8 % 2 = 1
        rw [readTag_congr (fun x hx1 hx2 => by
          rw [makeBlock_out hwe (by omega) hwlt (by omega) (by omega),
            hag x (by omega)])]
        exact hWF.prologue
      · show blocksAt (makeBlock m2 (16 + 8 * Wsum init2) (actSizeCalc N) true) 16
          (init2 ++ [⟨actSizeCalc N, true⟩])
        rw [blocksAt_append]
        refine ⟨?_, ⟨?_, ?_⟩, trivial⟩
        · exact blocksAt_agree
            (fun c hc => sizesOK_one hWF.sizes c (by rw [hdec]; simp [hc]))
            (fun x hx1 hx2 => by
              rw [makeBlock_out hwe (by omega) hwlt (by omega) (by omega),
                hag x (by omega)]) hbsplit
        · rw [readTag_makeBlock_header hwe (by omega) hwlt (by omega),
            tagV_mk]
        · rw [show 16 + 8 * Wsum init2 + 8 * Blk.size ⟨actSizeCalc N, true⟩ - 8 =
            16 + 8 * Wsum init2 + 8 * actSizeCalc N - 8 from by
              rw [show Blk.size ⟨actSizeCalc N, true⟩ = actSizeCalc N
                from rfl]]
          rw [readTag_makeBlock_footer hwe (by omega) hwlt (by omega),
            tagV_mk]
      · show readTag (makeBlock m2 (16 + 8 * Wsum init2) (actSizeCalc N) true)
          (12 + 8 * Wsum (init2 ++ [⟨actSizeCalc N, true⟩])) = 1
        rw [hW3, show 12 + 8 * (Wsum init2 + actSizeCalc N) =
          16 + 8 * Wsum init2 + 8 * actSizeCalc N - 4 from by omega]
        rw [readTag_makeBlock_out hwe (by omega) hwlt (by omega)
          (by constructor <;> right <;> omega)]
        exact hepi
      · show 16 + 8 * Wsum bs + 8 * (actSizeCalc N - lastb.size) =
          16 + 8 * Wsum (init2 ++ [⟨actSizeCalc N, true⟩])
        rw [hW3]
        omega
      · show 16 + 8 * Wsum bs + 8 * (actSizeCalc N - lastb.size) ≤ s.heap.cap
        exact hWF.brk ▸ hcap2
      · intro c hc
        have hc2 : c ∈ init2 ∨ c = (⟨actSizeCalc N, true⟩ : Blk) := by
          simpa using hc
        rcases hc2 with h | rfl
        · exact hWF.sizes c (by rw [hdec]; simp [h])
        · exact ⟨hw2, hwe⟩
      · unfold noAdjFree
        rw [List.chain'_append]
        refine ⟨hchain2, List.chain'_singleton _, ?_⟩
        intro x hx y hy
        have hyy : (⟨actSizeCalc N, true⟩ : Blk) = y := by simpa using hy
        exact Or.inr (by rw [← hyy])

/-! ## Neighbor tags for coalescing -/

theorem lastAlloc_nil : lastAlloc [] = true := rfl

theorem headAlloc_nil : headAlloc [] = true := rfl

theorem lastAlloc_concat (pre2 : List Blk) (pv : Blk) :
    lastAlloc (pre2 ++ [pv]) = pv.alloc := by
  unfold lastAlloc
  simp

theorem headAlloc_cons (nx : Blk) (post2 : List Blk) :
    headAlloc (nx :: post2) = nx.alloc := rfl

theorem prevTag_concat {s : AState} {bs pre2 post : List Blk} {pv blk : Blk}
    (hWF : WF s bs) (hdec : bs = (pre2 ++ [pv]) ++ blk :: post) :
    readTag s.heap.mem (16 + 8 * Wsum (pre2 ++ [pv]) - 8) = tagV pv := by
  have hdec2 : bs = pre2 ++ pv :: blk :: post := by rw [hdec]; simp
  have hpv : blockAt s.heap.mem (16 + 8 * Wsum pre2) pv :=
    hWF.blockAt_decomp hdec2
  have h := hpv.2
  have hWc : Wsum (pre2 ++ [pv]) = Wsum pre2 + pv.size := by
    rw [Wsum_append]
    simp [Wsum]
  rw [show 16 + 8 * Wsum pre2 + 8 * pv.size - 8 =
    16 + 8 * Wsum (pre2 ++ [pv]) - 8 from by omega] at h
  exact h

theorem nextTag_cons {s : AState} {bs pre post2 : List Blk} {blk nx : Blk}
    (hWF : WF s bs) (hdec : bs = pre ++ blk :: nx :: post2) :
    readTag s.heap.mem (16 + 8 * Wsum pre + 8 * blk.size - 4) = tagV nx := by
  have hb := hWF.blocks
  rw [hdec, blocksAt_append] at hb
  have h := hb.2.2.1.1
  rw [show 16 + 8 * Wsum pre + 8 * blk.size - 4 =
    16 + 8 * Wsum pre + 8 * blk.size - 4 from rfl]
  exact h

theorem prevParity {s : AState} {bs pre post : List Blk} {blk : Blk}
    (hWF : WF s bs) (hdec : bs = pre ++ blk :: post) :
    readTag s.heap.mem (16 + 8 * Wsum pre - 8) % 2 =
      (if lastAlloc pre = true then 1 else 0) := by
  rcases List.eq_nil_or_concat pre with rfl | ⟨pre2, pv, rfl⟩
  · rw [lastAlloc_nil]
    simp only [Wsum, Nat.mul_zero, Nat.add_zero, if_pos rfl]
    have h := hWF.prologue
    rw [show (16 : Nat) + 8 * 0 - 8 = 8 from by omega]
    exact h
  · rw [List.concat_eq_append] at hdec ⊢
    rw [prevTag_concat hWF hdec, lastAlloc_concat]
    have hm : pv ∈ bs := by rw [hdec]; simp
    have he : pv.size % 2 = 0 := (hWF.sizes pv hm).2
    unfold tagV
    cases pv.alloc <;> simp <;> omega

theorem nextParity {s : AState} {bs pre post : List Blk} {blk : Blk}
    (hWF : WF s bs) (hdec : bs = pre ++ blk :: post) :
    readTag s.heap.mem (16 + 8 * Wsum pre + 8 * blk.size - 4) % 2 =
      (if headAlloc post = true then 1 else 0) := by
  cases post with
  | nil =>
    have hWc : Wsum bs = Wsum pre + blk.size := by
      rw [Wsum_decomp hdec]
      simp [Wsum]
    have h := hWF.epilogue
    rw [show 16 + 8 * Wsum pre + 8 * blk.size - 4 =
      12 + 8 * Wsum bs from by omega]
    rw [h]
    simp [headAlloc_nil]
  | cons nx post2 =>
    rw [nextTag_cons hWF hdec, headAlloc_cons]
    have hm : nx ∈ bs := by rw [hdec]; simp
    have he : nx.size % 2 = 0 := (hWF.sizes nx hm).2
    unfold tagV
    cases nx.alloc <;> simp <;> omega

theorem lastAlloc_mem {pre : List Blk} {x : Blk} (hx : x ∈ pre.getLast?) :
    lastAlloc pre = x.alloc := by
  unfold lastAlloc
  rw [Option.mem_def] at hx
  rw [hx]
  rfl

theorem headAlloc_mem {post : List Blk} {y : Blk} (hy : y ∈ post.head?) :
    headAlloc post = y.alloc := by
  unfold headAlloc
  rw [Option.mem_def] at hy
  rw [hy]
  rfl

set_option maxHeartbeats 1000000 in
theorem free_spec {s : AState} {bs pre post : List Blk} {blk : Blk}
    (hWF : WF s bs) (hdec : bs = pre ++ blk :: post)
    (halloc : blk.alloc = true) :
    WF (mm_free s (16 + 8 * Wsum pre)) (coalesceSpec pre blk.size post) ∧
      isAllocated (mm_free s (16 + 8 * Wsum pre)).heap.mem
        (16 + 8 * Wsum pre) = false := by
  have hB := hWF.bytes
  have hblk : blockAt s.heap.mem (16 + 8 * Wsum pre) blk := hWF.blockAt_decomp hdec
  have hbm : blk ∈ bs := by rw [hdec]; simp
  have hse : blk.size % 2 = 0 := (hWF.sizes blk hbm).2
  have hs2 : 2 ≤ blk.size := (hWF.sizes blk hbm).1
  have hWd : Wsum bs = Wsum pre + blk.size + Wsum post := Wsum_decomp hdec
  have hbound := hWF.size_bound
  have hps : sizeOf s.heap.mem (16 + 8 * Wsum pre) = blk.size :=
    sizeOf_of_blockAt hblk hse
  have halc : isAllocated s.heap.mem (16 + 8 * Wsum pre) = true := by
    rw [isAllocated_of_blockAt hblk hse, halloc]
  have hguard : ¬(16 + 8 * Wsum pre = 0 ∨
      isAllocated s.heap.mem (16 + 8 * Wsum pre) = false ∨ s.heapBase = 0) := by
    intro h
    rcases h with h | h | h
    · omega
    · rw [halc] at h
      exact Bool.noConfusion h
    · rw [hWF.base] at h
      omega
  have hfr : mm_free s (16 + 8 * Wsum pre) =
      ⟨⟨(coalesce (toggleBlock s.heap.mem (16 + 8 * Wsum pre)) (16 + 8 * Wsum pre)).2,
        s.heap.brk, s.heap.cap⟩, s.heapBase⟩ := by
    simp only [mm_free]
    rw [if_neg hguard]
  have hT_H : readTag (toggleBlock s.heap.mem (16 + 8 * Wsum pre)) (16 + 8 * Wsum pre - 4) = blk.size := by
    rw [readTag_toggleBlock_header hB (by omega) (by rw [hps]; omega)]
    rw [hps, halc]
    simp
  have hT_F : readTag (toggleBlock s.heap.mem (16 + 8 * Wsum pre)) (16 + 8 * Wsum pre + 8 * blk.size - 8) = blk.size := by
    have h := readTag_toggleBlock_footer (p := (16 + 8 * Wsum pre)) hB
      (by omega) (by rw [hps]; omega)
    rw [hps, halc] at h
    simpa using h
  have hT_out : ∀ x, x + 4 < 16 + 8 * Wsum pre ∨
      16 + 8 * Wsum pre + 8 * blk.size - 4 ≤ x →
      toggleBlock s.heap.mem (16 + 8 * Wsum pre) x = s.heap.mem x := by
    intro x hx
    apply toggleBlock_out hB (by omega)
    · rw [hps]; omega
    · rw [hps]; exact hx
  have hT_Bytes : Bytes (toggleBlock s.heap.mem (16 + 8 * Wsum pre)) := bytes_toggleBlock hB _
  have hprev : readTag (toggleBlock s.heap.mem (16 + 8 * Wsum pre)) (16 + 8 * Wsum pre - 8) =
      readTag s.heap.mem (16 + 8 * Wsum pre - 8) := by
    apply readTag_congr
    intro x hx1 hx2
    exact hT_out x (Or.inl (by omega))
  have hnext : readTag (toggleBlock s.heap.mem (16 + 8 * Wsum pre)) (16 + 8 * Wsum pre + 8 * blk.size - 4) =
      readTag s.heap.mem (16 + 8 * Wsum pre + 8 * blk.size - 4) := by
    apply readTag_congr
    intro x hx1 hx2
    exact hT_out x (Or.inr (by omega))
  have hsm1 : sizeOf (toggleBlock s.heap.mem (16 + 8 * Wsum pre)) (16 + 8 * Wsum pre) = blk.size := by
    rw [sizeOf_val hT_H]
    omega
  have hnb1 : nextBlock (toggleBlock s.heap.mem (16 + 8 * Wsum pre)) (16 + 8 * Wsum pre) =
      16 + 8 * Wsum pre + 8 * blk.size := by
    unfold nextBlock WORD_SIZE
    rw [hsm1]
    ring
  have hap : isAllocated (toggleBlock s.heap.mem (16 + 8 * Wsum pre)) (header (16 + 8 * Wsum pre)) = lastAlloc pre := by
    unfold isAllocated header TAG_SIZE
    rw [show 16 + 8 * Wsum pre - 4 - 4 = 16 + 8 * Wsum pre - 8 from by omega]
    rw [hprev, prevParity hWF hdec]
    cases lastAlloc pre <;> simp
  have han : isAllocated (toggleBlock s.heap.mem (16 + 8 * Wsum pre)) (nextBlock (toggleBlock s.heap.mem (16 + 8 * Wsum pre)) (16 + 8 * Wsum pre)) =
      headAlloc post := by
    rw [hnb1]
    unfold isAllocated header TAG_SIZE
    rw [show 16 + 8 * Wsum pre + 8 * blk.size - 4 =
      16 + 8 * Wsum pre + 8 * blk.size - 4 from rfl]
    rw [hnext, nextParity hWF hdec]
    cases headAlloc post <;> simp
  have hch : List.Chain' (fun a b => a.alloc = true ∨ b.alloc = true)
      (pre ++ blk :: post) := by
    have h := hWF.noadj
    rw [hdec] at h
    exact h
  obtain ⟨hchpre, hchbp, hbdy⟩ := List.chain'_append.mp hch
  obtain ⟨hbdyb, hchpost⟩ := List.chain'_cons'.mp hchbp
  rw [hfr]
  cases hpa : lastAlloc pre with
  | true =>
    rw [hpa] at hap
    cases hna : headAlloc post with
    | true =>
      rw [hna] at han
      have hco : coalesce (toggleBlock s.heap.mem (16 + 8 * Wsum pre)) (16 + 8 * Wsum pre) =
          (16 + 8 * Wsum pre, (toggleBlock s.heap.mem (16 + 8 * Wsum pre))) := coalesce_bothAlloc hap han
      have hcs : coalesceSpec pre blk.size post =
          pre ++ (⟨blk.size, false⟩ : Blk) :: post := by
        unfold coalesceSpec
        rw [hpa, hna]
        simp
      have hWEq : Wsum (pre ++ (⟨blk.size, false⟩ : Blk) :: post) = Wsum bs := by
        rw [Wsum_append, hWd]
        rw [show Wsum ((⟨blk.size, false⟩ : Blk) :: post) =
          blk.size + Wsum post from rfl]
        omega
      rw [hco, hcs]
      refine ⟨?_, ?_⟩
      · refine ⟨?_, ?_, ?_, ?_, ?_, ?_, ?_, ?_, ?_, ?_, ?_⟩
        · exact hT_Bytes
        · exact hWF.base
        · simp
        · show readTag (toggleBlock s.heap.mem (16 + 8 * Wsum pre)) 8 % 2 = 1
          rw [readTag_congr (fun x hx1 hx2 => hT_out x (Or.inl (by omega)))]
          exact hWF.prologue
        · show blocksAt (toggleBlock s.heap.mem (16 + 8 * Wsum pre)) 16 (pre ++ (⟨blk.size, false⟩ : Blk) :: post)
          have hbs2 : blocksAt s.heap.mem 16 (pre ++ [blk] ++ post) := by
            have h := hWF.blocks
            rw [hdec] at h
            simpa using h
          have hmid : blocksAt (toggleBlock s.heap.mem (16 + 8 * Wsum pre)) (16 + 8 * Wsum pre)
              [(⟨blk.size, false⟩ : Blk)] := by
            refine ⟨⟨?_, ?_⟩, trivial⟩
            · rw [hT_H, tagV_mk]
              simp
            · show readTag (toggleBlock s.heap.mem (16 + 8 * Wsum pre)) (16 + 8 * Wsum pre + 8 * blk.size - 8) =
                tagV ⟨blk.size, false⟩
              rw [hT_F, tagV_mk]
              simp
          have hsur := blocksAt_surgery
            (fun b hb => by
              have := hWF.sizes b (by rw [hdec]; exact List.mem_append_left _ hb)
              omega)
            (fun b hb => by
              have hbm2 : b ∈ bs := by
                rw [hdec]
                exact List.mem_append_right _ (List.mem_cons_of_mem _ hb)
              have := hWF.sizes b hbm2
              omega)
            (show Wsum [(⟨blk.size, false⟩ : Blk)] = Wsum [blk] from rfl)
            (fun x hx => hT_out x (by
              rw [show Wsum [blk] = blk.size + 0 from rfl] at hx
              omega))
            hbs2 hmid
          simpa using hsur
        · show readTag (toggleBlock s.heap.mem (16 + 8 * Wsum pre))
            (12 + 8 * Wsum (pre ++ (⟨blk.size, false⟩ : Blk) :: post)) = 1
          rw [hWEq]
          rw [readTag_congr (fun x hx1 hx2 => hT_out x (Or.inr (by
            rw [hWd] at hx1
            omega)))]
          exact hWF.epilogue
        · show s.heap.brk = 16 + 8 * Wsum (pre ++ (⟨blk.size, false⟩ : Blk) :: post)
          rw [hWEq]
          exact hWF.brk
        · exact hWF.brkcap
        · exact hWF.cap
        · show sizesOK (pre ++ (⟨blk.size, false⟩ : Blk) :: post)
          unfold sizesOK
          intro c hc
          have hc2 : c ∈ pre ∨ c = (⟨blk.size, false⟩ : Blk) ∨ c ∈ post := by
            simpa using hc
          rcases hc2 with h | h | h
          · exact hWF.sizes c (by rw [hdec]; exact List.mem_append_left _ h)
          · rw [h]
            exact ⟨hs2, hse⟩
          · refine hWF.sizes c ?_
            rw [hdec]
            exact List.mem_append_right _ (List.mem_cons_of_mem _ h)
        · show noAdjFree (pre ++ (⟨blk.size, false⟩ : Blk) :: post)
          unfold noAdjFree
          rw [List.chain'_append]
          refine ⟨hchpre, List.chain'_cons'.mpr ⟨?_, hchpost⟩, ?_⟩
          · intro y hy
            have h2 := headAlloc_mem hy
            rw [hna] at h2
            exact Or.inr h2.symm
          · intro x hx y hy
            have h2 := lastAlloc_mem hx
            rw [hpa] at h2
            exact Or.inl h2.symm
      · show isAllocated (toggleBlock s.heap.mem (16 + 8 * Wsum pre)) (16 + 8 * Wsum pre) = false
        rw [isAllocated_val hT_H]
        simp only [decide_eq_false_iff_not]
        omega
    | false =>
      rw [hna] at han
      cases post with
      | nil =>
        rw [headAlloc_nil] at hna
        exact absurd hna (by decide)
      | cons nx post2 =>
        have hnx : nx.alloc = false := by
          rw [headAlloc_cons] at hna
          exact hna
        have hnxm : nx ∈ bs := by rw [hdec]; simp
        have hnxe : nx.size % 2 = 0 := (hWF.sizes nx hnxm).2
        have hnx2 : 2 ≤ nx.size := (hWF.sizes nx hnxm).1
        have hWc : Wsum (nx :: post2) = nx.size + Wsum post2 := rfl
        have hb2 := hbound
        rw [hWd, hWc] at hb2
        have hnxtag : readTag s.heap.mem
            (16 + 8 * Wsum pre + 8 * blk.size - 4) = tagV nx :=
          nextTag_cons hWF hdec
        have hqn : readTag (toggleBlock s.heap.mem (16 + 8 * Wsum pre)) (16 + 8 * Wsum pre + 8 * blk.size - 4) =
            tagV nx := by
          rw [hnext]
          exact hnxtag
        have htv : tagV nx = nx.size := by
          unfold tagV
          rw [hnx]
          simp
        have hszn : sizeOf (toggleBlock s.heap.mem (16 + 8 * Wsum pre)) (nextBlock (toggleBlock s.heap.mem (16 + 8 * Wsum pre)) (16 + 8 * Wsum pre)) =
            nx.size := by
          rw [hnb1, sizeOf_val hqn, htv]
          omega
        have hco : coalesce (toggleBlock s.heap.mem (16 + 8 * Wsum pre)) (16 + 8 * Wsum pre) = (16 + 8 * Wsum pre,
            (makeBlock (toggleBlock s.heap.mem (16 + 8 * Wsum pre)) (16 + 8 * Wsum pre) (blk.size + nx.size) false)) := by
          rw [coalesce_nextFree hap han, hsm1, hszn,
            Nat.mod_eq_of_lt (by rw [U32_eq]; omega)]
        have hSe : (blk.size + nx.size) % 2 = 0 := by omega
        have hS1 : 1 ≤ blk.size + nx.size := by omega
        have hSu : blk.size + nx.size + 1 < U32 := by
          rw [U32_eq]
          omega
        have hMH : readTag (makeBlock (toggleBlock s.heap.mem (16 + 8 * Wsum pre)) (16 + 8 * Wsum pre) (blk.size + nx.size) false) (16 + 8 * Wsum pre - 4) =
            blk.size + nx.size := by
          rw [readTag_makeBlock_header hSe hS1 hSu (by omega)]
          simp
        have hMF : readTag (makeBlock (toggleBlock s.heap.mem (16 + 8 * Wsum pre)) (16 + 8 * Wsum pre) (blk.size + nx.size) false)
            (16 + 8 * Wsum pre + 8 * (blk.size + nx.size) - 8) =
            blk.size + nx.size := by
          rw [readTag_makeBlock_footer hSe hS1 hSu (by omega)]
          simp
        have hMout : ∀ x, x + 4 < 16 + 8 * Wsum pre ∨
            16 + 8 * Wsum pre + 8 * (blk.size + nx.size) - 4 ≤ x →
            (makeBlock (toggleBlock s.heap.mem (16 + 8 * Wsum pre)) (16 + 8 * Wsum pre) (blk.size + nx.size) false) x = s.heap.mem x := by
          intro x hx
          rw [makeBlock_out hSe hS1 hSu (by omega) hx]
          exact hT_out x (by omega)
        have hcs : coalesceSpec pre blk.size (nx :: post2) =
            pre ++ (⟨blk.size + nx.size, false⟩ : Blk) :: post2 := by
          unfold coalesceSpec
          rw [hpa, headAlloc_cons, hnx]
          simp
        have hWEq : Wsum (pre ++ (⟨blk.size + nx.size, false⟩ : Blk) :: post2) =
            Wsum bs := by
          rw [Wsum_append, hWd, hWc]
          rw [show Wsum ((⟨blk.size + nx.size, false⟩ : Blk) :: post2) =
            blk.size + nx.size + Wsum post2 from rfl]
          omega
        rw [hco, hcs]
        refine ⟨?_, ?_⟩
        · refine ⟨?_, ?_, ?_, ?_, ?_, ?_, ?_, ?_, ?_, ?_, ?_⟩
          · exact bytes_makeBlock hT_Bytes _ _ _
          · exact hWF.base
          · simp
          · show readTag (makeBlock (toggleBlock s.heap.mem (16 + 8 * Wsum pre)) (16 + 8 * Wsum pre) (blk.size + nx.size) false) 8 % 2 = 1
            rw [readTag_congr (fun x hx1 hx2 => hMout x (Or.inl (by omega)))]
            exact hWF.prologue
          · show blocksAt (makeBlock (toggleBlock s.heap.mem (16 + 8 * Wsum pre)) (16 + 8 * Wsum pre) (blk.size + nx.size) false) 16
              (pre ++ (⟨blk.size + nx.size, false⟩ : Blk) :: post2)
            have hbs2 : blocksAt s.heap.mem 16 (pre ++ [blk, nx] ++ post2) := by
              have h := hWF.blocks
              rw [hdec] at h
              simpa using h
            have hmid : blocksAt (makeBlock (toggleBlock s.heap.mem (16 + 8 * Wsum pre)) (16 + 8 * Wsum pre) (blk.size + nx.size) false) (16 + 8 * Wsum pre)
                [(⟨blk.size + nx.size, false⟩ : Blk)] := by
              refine ⟨⟨?_, ?_⟩, trivial⟩
              · rw [hMH, tagV_mk]
                simp
              · show readTag (makeBlock (toggleBlock s.heap.mem (16 + 8 * Wsum pre)) (16 + 8 * Wsum pre) (blk.size + nx.size) false)
                  (16 + 8 * Wsum pre + 8 * (blk.size + nx.size) - 8) =
                  tagV ⟨blk.size + nx.size, false⟩
                rw [hMF, tagV_mk]
                simp
            have hsur := blocksAt_surgery
              (fun b hb => by
                have := hWF.sizes b (by rw [hdec]; exact List.mem_append_left _ hb)
                omega)
              (fun b hb => by
                have hbm2 : b ∈ bs := by
                  rw [hdec]
                  exact List.mem_append_right _
                    (List.mem_cons_of_mem _ (List.mem_cons_of_mem _ hb))
                have := hWF.sizes b hbm2
                omega)
              (show Wsum [(⟨blk.size + nx.size, false⟩ : Blk)] =
                Wsum [blk, nx] from by
                show blk.size + nx.size + 0 = blk.size + (nx.size + 0)
                ring)
              (fun x hx => hMout x (by
                rw [show Wsum [blk, nx] = blk.size + (nx.size + 0) from rfl] at hx
                omega))
              hbs2 hmid
            simpa using hsur
          · show readTag (makeBlock (toggleBlock s.heap.mem (16 + 8 * Wsum pre)) (16 + 8 * Wsum pre) (blk.size + nx.size) false)
              (12 + 8 * Wsum (pre ++ (⟨blk.size + nx.size, false⟩ : Blk) :: post2)) = 1
            rw [hWEq]
            rw [readTag_congr (fun x hx1 hx2 => hMout x (Or.inr (by
              rw [hWd, hWc] at hx1
              omega)))]
            exact hWF.epilogue
          · show s.heap.brk =
              16 + 8 * Wsum (pre ++ (⟨blk.size + nx.size, false⟩ : Blk) :: post2)
            rw [hWEq]
            exact hWF.brk
          · exact hWF.brkcap
          · exact hWF.cap
          · show sizesOK (pre ++ (⟨blk.size + nx.size, false⟩ : Blk) :: post2)
            unfold sizesOK
            intro c hc
            have hc2 : c ∈ pre ∨ c = (⟨blk.size + nx.size, false⟩ : Blk) ∨
                c ∈ post2 := by
              simpa using hc
            rcases hc2 with h | h | h
            · exact hWF.sizes c (by rw [hdec]; exact List.mem_append_left _ h)
            · rw [h]
              refine ⟨?_, ?_⟩
              · show 2 ≤ blk.size + nx.size
                omega
              · show (blk.size + nx.size) % 2 = 0
                omega
            · refine hWF.sizes c ?_
              rw [hdec]
              exact List.mem_append_right _
                (List.mem_cons_of_mem _ (List.mem_cons_of_mem _ h))
          · show noAdjFree (pre ++ (⟨blk.size + nx.size, false⟩ : Blk) :: post2)
            unfold noAdjFree
            rw [List.chain'_append]
            obtain ⟨hbn, hchp2⟩ := List.chain'_cons'.mp hchpost
            refine ⟨hchpre, List.chain'_cons'.mpr ⟨?_, hchp2⟩, ?_⟩
            · intro y hy
              rcases hbn y hy with h | h
              · rw [hnx] at h
                exact Bool.noConfusion h
              · exact Or.inr h
            · intro x hx y hy
              have h2 := lastAlloc_mem hx
              rw [hpa] at h2
              exact Or.inl h2.symm
        · show isAllocated (makeBlock (toggleBlock s.heap.mem (16 + 8 * Wsum pre)) (16 + 8 * Wsum pre) (blk.size + nx.size) false) (16 + 8 * Wsum pre) = false
          rw [isAllocated_val hMH]
          simp only [decide_eq_false_iff_not]
          omega
  | false =>
    rw [hpa] at hap
    rcases List.eq_nil_or_concat pre with rfl | ⟨pre2, pv, rfl⟩
    · rw [lastAlloc_nil] at hpa
      exact absurd hpa (by decide)
    · simp only [List.concat_eq_append] at *
      have hpv : pv.alloc = false := by
        rw [lastAlloc_concat] at hpa
        exact hpa
      have hpvm : pv ∈ bs := by rw [hdec]; simp
      have hpve : pv.size % 2 = 0 := (hWF.sizes pv hpvm).2
      have hpv2 : 2 ≤ pv.size := (hWF.sizes pv hpvm).1
      have hWc2 : Wsum (pre2 ++ [pv]) = Wsum pre2 + pv.size := by
        rw [Wsum_append]
        rw [show Wsum [pv] = pv.size + 0 from rfl]
        omega
      have hpvtag : readTag s.heap.mem (16 + 8 * Wsum (pre2 ++ [pv]) - 8) =
          tagV pv := prevTag_concat hWF hdec
      have hq : readTag (toggleBlock s.heap.mem (16 + 8 * Wsum (pre2 ++ [pv]))) (16 + 8 * Wsum (pre2 ++ [pv]) - 4 - 4) = tagV pv := by
        rw [show 16 + 8 * Wsum (pre2 ++ [pv]) - 4 - 4 =
          16 + 8 * Wsum (pre2 ++ [pv]) - 8 from by omega]
        rw [hprev]
        exact hpvtag
      have htv2 : tagV pv = pv.size := by
        unfold tagV
        rw [hpv]
        simp
      have hszh : sizeOf (toggleBlock s.heap.mem (16 + 8 * Wsum (pre2 ++ [pv]))) (header (16 + 8 * Wsum (pre2 ++ [pv]))) =
          pv.size := by
        unfold header TAG_SIZE
        rw [sizeOf_val hq, htv2]
        omega
      have hpb1 : prevBlock (toggleBlock s.heap.mem (16 + 8 * Wsum (pre2 ++ [pv]))) (16 + 8 * Wsum (pre2 ++ [pv])) =
          16 + 8 * Wsum pre2 := by
        unfold prevBlock WORD_SIZE
        rw [hszh, hWc2]
        omega
      obtain ⟨hchpre2, hchpv, hbdy2⟩ := List.chain'_append.mp hchpre
      cases hna : headAlloc post with
      | true =>
        rw [hna] at han
        have hb3 := hbound
        rw [hWd, hWc2] at hb3
        have hco : coalesce (toggleBlock s.heap.mem (16 + 8 * Wsum (pre2 ++ [pv]))) (16 + 8 * Wsum (pre2 ++ [pv])) =
            (16 + 8 * Wsum pre2, (makeBlock (toggleBlock s.heap.mem (16 + 8 * Wsum (pre2 ++ [pv]))) (16 + 8 * Wsum pre2) (blk.size + pv.size) false)) := by
          rw [coalesce_prevFree hap han, hpb1, hsm1, hszh,
            Nat.mod_eq_of_lt (by rw [U32_eq]; omega)]
        have hSe : (blk.size + pv.size) % 2 = 0 := by omega
        have hS1 : 1 ≤ blk.size + pv.size := by omega
        have hSu : blk.size + pv.size + 1 < U32 := by
          rw [U32_eq]
          omega
        have hMH : readTag (makeBlock (toggleBlock s.heap.mem (16 + 8 * Wsum (pre2 ++ [pv]))) (16 + 8 * Wsum pre2) (blk.size + pv.size) false) (16 + 8 * Wsum pre2 - 4) =
            blk.size + pv.size := by
          rw [readTag_makeBlock_header hSe hS1 hSu (by omega)]
          simp
        have hMF : readTag (makeBlock (toggleBlock s.heap.mem (16 + 8 * Wsum (pre2 ++ [pv]))) (16 + 8 * Wsum pre2) (blk.size + pv.size) false)
            (16 + 8 * Wsum pre2 + 8 * (blk.size + pv.size) - 8) =
            blk.size + pv.size := by
          rw [readTag_makeBlock_footer hSe hS1 hSu (by omega)]
          simp
        have hMout : ∀ x, x + 4 < 16 + 8 * Wsum pre2 ∨
            16 + 8 * Wsum pre2 + 8 * (blk.size + pv.size) - 4 ≤ x →
            (makeBlock (toggleBlock s.heap.mem (16 + 8 * Wsum (pre2 ++ [pv]))) (16 + 8 * Wsum pre2) (blk.size + pv.size) false) x = s.heap.mem x := by
          intro x hx
          rw [makeBlock_out hSe hS1 hSu (by omega) hx]
          refine hT_out x ?_
          rw [hWc2]
          omega
        have hcs : coalesceSpec (pre2 ++ [pv]) blk.size post =
            pre2 ++ (⟨blk.size + pv.size, false⟩ : Blk) :: post := by
          unfold coalesceSpec
          rw [lastAlloc_concat, hpv, hna]
          simp
        have hWEq : Wsum (pre2 ++ (⟨blk.size + pv.size, false⟩ : Blk) :: post) =
            Wsum bs := by
          rw [Wsum_append, hWd, hWc2]
          rw [show Wsum ((⟨blk.size + pv.size, false⟩ : Blk) :: post) =
            blk.size + pv.size + Wsum post from rfl]
          omega
        rw [hco, hcs]
        refine ⟨?_, ?_⟩
        · refine ⟨?_, ?_, ?_, ?_, ?_, ?_, ?_, ?_, ?_, ?_, ?_⟩
          · exact bytes_makeBlock hT_Bytes _ _ _
          · exact hWF.base
          · simp
          · show readTag (makeBlock (toggleBlock s.heap.mem (16 + 8 * Wsum (pre2 ++ [pv]))) (16 + 8 * Wsum pre2) (blk.size + pv.size) false) 8 % 2 = 1
            rw [readTag_congr (fun x hx1 hx2 => hMout x (Or.inl (by omega)))]
            exact hWF.prologue
          · show blocksAt (makeBlock (toggleBlock s.heap.mem (16 + 8 * Wsum (pre2 ++ [pv]))) (16 + 8 * Wsum pre2) (blk.size + pv.size) false) 16
              (pre2 ++ (⟨blk.size + pv.size, false⟩ : Blk) :: post)
            have hbs3 : blocksAt s.heap.mem 16 (pre2 ++ [pv, blk] ++ post) := by
              have h := hWF.blocks
              rw [hdec] at h
              simpa using h
            have hmid : blocksAt (makeBlock (toggleBlock s.heap.mem (16 + 8 * Wsum (pre2 ++ [pv]))) (16 + 8 * Wsum pre2) (blk.size + pv.size) false) (16 + 8 * Wsum pre2)
                [(⟨blk.size + pv.size, false⟩ : Blk)] := by
              refine ⟨⟨?_, ?_⟩, trivial⟩
              · rw [hMH, tagV_mk]
                simp
              · show readTag (makeBlock (toggleBlock s.heap.mem (16 + 8 * Wsum (pre2 ++ [pv]))) (16 + 8 * Wsum pre2) (blk.size + pv.size) false)
                  (16 + 8 * Wsum pre2 + 8 * (blk.size + pv.size) - 8) =
                  tagV ⟨blk.size + pv.size, false⟩
                rw [hMF, tagV_mk]
                simp
            have hsur := blocksAt_surgery
              (fun b hb => by
                have hbm2 : b ∈ bs := by
                  rw [hdec]
                  exact List.mem_append_left _ (List.mem_append_left _ hb)
                have := hWF.sizes b hbm2
                omega)
              (fun b hb => by
                have hbm2 : b ∈ bs := by
                  rw [hdec]
                  exact List.mem_append_right _ (List.mem_cons_of_mem _ hb)
                have := hWF.sizes b hbm2
                omega)
              (show Wsum [(⟨blk.size + pv.size, false⟩ : Blk)] =
                Wsum [pv, blk] from by
                show blk.size + pv.size + 0 = pv.size + (blk.size + 0)
                ring)
              (fun x hx => hMout x (by
                rw [show Wsum [pv, blk] = pv.size + (blk.size + 0) from rfl] at hx
                omega))
              hbs3 hmid
            simpa using hsur
          · show readTag (makeBlock (toggleBlock s.heap.mem (16 + 8 * Wsum (pre2 ++ [pv]))) (16 + 8 * Wsum pre2) (blk.size + pv.size) false)
              (12 + 8 * Wsum (pre2 ++ (⟨blk.size + pv.size, false⟩ : Blk) :: post)) = 1
            rw [hWEq]
            rw [readTag_congr (fun x hx1 hx2 => hMout x (Or.inr (by
              rw [hWd, hWc2] at hx1
              omega)))]
            exact hWF.epilogue
          · show s.heap.brk =
              16 + 8 * Wsum (pre2 ++ (⟨blk.size + pv.size, false⟩ : Blk) :: post)
            rw [hWEq]
            exact hWF.brk
          · exact hWF.brkcap
          · exact hWF.cap
          · show sizesOK (pre2 ++ (⟨blk.size + pv.size, false⟩ : Blk) :: post)
            unfold sizesOK
            intro c hc
            have hc2 : c ∈ pre2 ∨ c = (⟨blk.size + pv.size, false⟩ : Blk) ∨
                c ∈ post := by
              simpa using hc
            rcases hc2 with h | h | h
            · refine hWF.sizes c ?_
              rw [hdec]
              exact List.mem_append_left _ (List.mem_append_left _ h)
            · rw [h]
              refine ⟨?_, ?_⟩
              · show 2 ≤ blk.size + pv.size
                omega
              · show (blk.size + pv.size) % 2 = 0
                omega
            · refine hWF.sizes c ?_
              rw [hdec]
              exact List.mem_append_right _ (List.mem_cons_of_mem _ h)
          · show noAdjFree (pre2 ++ (⟨blk.size + pv.size, false⟩ : Blk) :: post)
            unfold noAdjFree
            rw [List.chain'_append]
            refine ⟨hchpre2, List.chain'_cons'.mpr ⟨?_, hchpost⟩, ?_⟩
            · intro y hy
              have h2 := headAlloc_mem hy
              rw [hna] at h2
              exact Or.inr h2.symm
            · intro x hx y hy
              have h3 := hbdy2 x hx pv (by simp)
              rcases h3 with h | h
              · exact Or.inl h
              · rw [hpv] at h
                exact Bool.noConfusion h
        · show isAllocated (makeBlock (toggleBlock s.heap.mem (16 + 8 * Wsum (pre2 ++ [pv]))) (16 + 8 * Wsum pre2) (blk.size + pv.size) false) (16 + 8 * Wsum (pre2 ++ [pv])) = false
          have ho := readTag_makeBlock_out (m := (toggleBlock s.heap.mem (16 + 8 * Wsum (pre2 ++ [pv])))) (p := (16 + 8 * Wsum pre2))
            (a := (16 + 8 * Wsum (pre2 ++ [pv]) - 4)) (b := false) hSe hS1 hSu
            (by omega)
            ⟨Or.inr (by rw [hWc2]; omega), Or.inl (by rw [hWc2]; omega)⟩
          have hr : readTag (makeBlock (toggleBlock s.heap.mem (16 + 8 * Wsum (pre2 ++ [pv]))) (16 + 8 * Wsum pre2) (blk.size + pv.size) false) (16 + 8 * Wsum (pre2 ++ [pv]) - 4) =
              blk.size := by
            rw [ho]
            exact hT_H
          rw [isAllocated_val hr]
          simp only [decide_eq_false_iff_not]
          omega
      | false =>
        rw [hna] at han
        cases post with
        | nil =>
          rw [headAlloc_nil] at hna
          exact absurd hna (by decide)
        | cons nx post2 =>
          have hnx : nx.alloc = false := by
            rw [headAlloc_cons] at hna
            exact hna
          have hnxm : nx ∈ bs := by rw [hdec]; simp
          have hnxe : nx.size % 2 = 0 := (hWF.sizes nx hnxm).2
          have hnx2 : 2 ≤ nx.size := (hWF.sizes nx hnxm).1
          have hWc : Wsum (nx :: post2) = nx.size + Wsum post2 := rfl
          have hb4 := hbound
          rw [hWd, hWc2, hWc] at hb4
          have hnxtag : readTag s.heap.mem
              (16 + 8 * Wsum (pre2 ++ [pv]) + 8 * blk.size - 4) = tagV nx :=
            nextTag_cons hWF hdec
          have hqn : readTag (toggleBlock s.heap.mem (16 + 8 * Wsum (pre2 ++ [pv])))
              (16 + 8 * Wsum (pre2 ++ [pv]) + 8 * blk.size - 4) = tagV nx := by
            rw [hnext]
            exact hnxtag
          have htv : tagV nx = nx.size := by
            unfold tagV
            rw [hnx]
            simp
          have hszn : sizeOf (toggleBlock s.heap.mem (16 + 8 * Wsum (pre2 ++ [pv]))) (nextBlock (toggleBlock s.heap.mem (16 + 8 * Wsum (pre2 ++ [pv]))) (16 + 8 * Wsum (pre2 ++ [pv]))) =
              nx.size := by
            rw [hnb1, sizeOf_val hqn, htv]
            omega
          have hco : coalesce (toggleBlock s.heap.mem (16 + 8 * Wsum (pre2 ++ [pv]))) (16 + 8 * Wsum (pre2 ++ [pv])) =
              (16 + 8 * Wsum pre2, (makeBlock (toggleBlock s.heap.mem (16 + 8 * Wsum (pre2 ++ [pv]))) (16 + 8 * Wsum pre2) (blk.size + pv.size + nx.size) false)) := by
            rw [coalesce_bothFree hap han, hpb1, hsm1, hszh, hszn]
            rw [show blk.size + (pv.size + nx.size) =
              blk.size + pv.size + nx.size from by ring]
            rw [Nat.mod_eq_of_lt (by rw [U32_eq]; omega)]
          have hSe : (blk.size + pv.size + nx.size) % 2 = 0 := by omega
          have hS1 : 1 ≤ blk.size + pv.size + nx.size := by omega
          have hSu : blk.size + pv.size + nx.size + 1 < U32 := by
            rw [U32_eq]
            omega
          have hMH : readTag (makeBlock (toggleBlock s.heap.mem (16 + 8 * Wsum (pre2 ++ [pv]))) (16 + 8 * Wsum pre2) (blk.size + pv.size + nx.size) false) (16 + 8 * Wsum pre2 - 4) =
              blk.size + pv.size + nx.size := by
            rw [readTag_makeBlock_header hSe hS1 hSu (by omega)]
            simp
          have hMF : readTag (makeBlock (toggleBlock s.heap.mem (16 + 8 * Wsum (pre2 ++ [pv]))) (16 + 8 * Wsum pre2) (blk.size + pv.size + nx.size) false)
              (16 + 8 * Wsum pre2 + 8 * (blk.size + pv.size + nx.size) - 8) =
              blk.size + pv.size + nx.size := by
            rw [readTag_makeBlock_footer hSe hS1 hSu (by omega)]
            simp
          have hMout : ∀ x, x + 4 < 16 + 8 * Wsum pre2 ∨
              16 + 8 * Wsum pre2 + 8 * (blk.size + pv.size + nx.size) - 4 ≤ x →
              (makeBlock (toggleBlock s.heap.mem (16 + 8 * Wsum (pre2 ++ [pv]))) (16 + 8 * Wsum pre2) (blk.size + pv.size + nx.size) false) x = s.heap.mem x := by
            intro x hx
            rw [makeBlock_out hSe hS1 hSu (by omega) hx]
            refine hT_out x ?_
            rw [hWc2]
            omega
          have hcs : coalesceSpec (pre2 ++ [pv]) blk.size (nx :: post2) =
              pre2 ++ (⟨blk.size + pv.size + nx.size, false⟩ : Blk) :: post2 := by
            unfold coalesceSpec
            rw [lastAlloc_concat, hpv, headAlloc_cons, hnx]
            simp
          have hWEq : Wsum
              (pre2 ++ (⟨blk.size + pv.size + nx.size, false⟩ : Blk) :: post2) =
              Wsum bs := by
            rw [Wsum_append, hWd, hWc2, hWc]
            rw [show Wsum ((⟨blk.size + pv.size + nx.size, false⟩ : Blk) :: post2) =
              blk.size + pv.size + nx.size + Wsum post2 from rfl]
            omega
          rw [hco, hcs]
          refine ⟨?_, ?_⟩
          · refine ⟨?_, ?_, ?_, ?_, ?_, ?_, ?_, ?_, ?_, ?_, ?_⟩
            · exact bytes_makeBlock hT_Bytes _ _ _
            · exact hWF.base
            · simp
            · show readTag (makeBlock (toggleBlock s.heap.mem (16 + 8 * Wsum (pre2 ++ [pv]))) (16 + 8 * Wsum pre2) (blk.size + pv.size + nx.size) false) 8 % 2 = 1
              rw [readTag_congr (fun x hx1 hx2 => hMout x (Or.inl (by omega)))]
              exact hWF.prologue
            · show blocksAt (makeBlock (toggleBlock s.heap.mem (16 + 8 * Wsum (pre2 ++ [pv]))) (16 + 8 * Wsum pre2) (blk.size + pv.size + nx.size) false) 16
                (pre2 ++ (⟨blk.size + pv.size + nx.size, false⟩ : Blk) :: post2)
              have hbs4 : blocksAt s.heap.mem 16
                  (pre2 ++ [pv, blk, nx] ++ post2) := by
                have h := hWF.blocks
                rw [hdec] at h
                simpa using h
              have hmid : blocksAt (makeBlock (toggleBlock s.heap.mem (16 + 8 * Wsum (pre2 ++ [pv]))) (16 + 8 * Wsum pre2) (blk.size + pv.size + nx.size) false) (16 + 8 * Wsum pre2)
                  [(⟨blk.size + pv.size + nx.size, false⟩ : Blk)] := by
                refine ⟨⟨?_, ?_⟩, trivial⟩
                · rw [hMH, tagV_mk]
                  simp
                · show readTag (makeBlock (toggleBlock s.heap.mem (16 + 8 * Wsum (pre2 ++ [pv]))) (16 + 8 * Wsum pre2) (blk.size + pv.size + nx.size) false)
                    (16 + 8 * Wsum pre2 + 8 * (blk.size + pv.size + nx.size) - 8) =
                    tagV ⟨blk.size + pv.size + nx.size, false⟩
                  rw [hMF, tagV_mk]
                  simp
              have hsur := blocksAt_surgery
                (fun b hb => by
                  have hbm2 : b ∈ bs := by
                    rw [hdec]
                    exact List.mem_append_left _ (List.mem_append_left _ hb)
                  have := hWF.sizes b hbm2
                  omega)
                (fun b hb => by
                  have hbm2 : b ∈ bs := by
                    rw [hdec]
                    exact List.mem_append_right _
                      (List.mem_cons_of_mem _ (List.mem_cons_of_mem _ hb))
                  have := hWF.sizes b hbm2
                  omega)
                (show Wsum [(⟨blk.size + pv.size + nx.size, false⟩ : Blk)] =
                  Wsum [pv, blk, nx] from by
                  show blk.size + pv.size + nx.size + 0 =
                    pv.size + (blk.size + (nx.size + 0))
                  ring)
                (fun x hx => hMout x (by
                  rw [show Wsum [pv, blk, nx] =
                    pv.size + (blk.size + (nx.size + 0)) from rfl] at hx
                  omega))
                hbs4 hmid
              simpa using hsur
            · show readTag (makeBlock (toggleBlock s.heap.mem (16 + 8 * Wsum (pre2 ++ [pv]))) (16 + 8 * Wsum pre2) (blk.size + pv.size + nx.size) false)
                (12 + 8 * Wsum (pre2 ++
                  (⟨blk.size + pv.size + nx.size, false⟩ : Blk) :: post2)) = 1
              rw [hWEq]
              rw [readTag_congr (fun x hx1 hx2 => hMout x (Or.inr (by
                rw [hWd, hWc2, hWc] at hx1
                omega)))]
              exact hWF.epilogue
            · show s.heap.brk = 16 + 8 * Wsum
                (pre2 ++ (⟨blk.size + pv.size + nx.size, false⟩ : Blk) :: post2)
              rw [hWEq]
              exact hWF.brk
            · exact hWF.brkcap
            · exact hWF.cap
            · show sizesOK
                (pre2 ++ (⟨blk.size + pv.size + nx.size, false⟩ : Blk) :: post2)
              unfold sizesOK
              intro c hc
              have hc2 : c ∈ pre2 ∨
                  c = (⟨blk.size + pv.size + nx.size, false⟩ : Blk) ∨
                  c ∈ post2 := by
                simpa using hc
              rcases hc2 with h | h | h
              · refine hWF.sizes c ?_
                rw [hdec]
                exact List.mem_append_left _ (List.mem_append_left _ h)
              · rw [h]
                refine ⟨?_, ?_⟩
                · show 2 ≤ blk.size + pv.size + nx.size
                  omega
                · show (blk.size + pv.size + nx.size) % 2 = 0
                  omega
              · refine hWF.sizes c ?_
                rw [hdec]
                exact List.mem_append_right _
                  (List.mem_cons_of_mem _ (List.mem_cons_of_mem _ h))
            · show noAdjFree
                (pre2 ++ (⟨blk.size + pv.size + nx.size, false⟩ : Blk) :: post2)
              unfold noAdjFree
              rw [List.chain'_append]
              obtain ⟨hbn, hchp2⟩ := List.chain'_cons'.mp hchpost
              refine ⟨hchpre2, List.chain'_cons'.mpr ⟨?_, hchp2⟩, ?_⟩
              · intro y hy
                rcases hbn y hy with h | h
                · rw [hnx] at h
                  exact Bool.noConfusion h
                · exact Or.inr h
              · intro x hx y hy
                have h3 := hbdy2 x hx pv (by simp)
                rcases h3 with h | h
                · exact Or.inl h
                · rw [hpv] at h
                  exact Bool.noConfusion h
          · show isAllocated (makeBlock (toggleBlock s.heap.mem (16 + 8 * Wsum (pre2 ++ [pv]))) (16 + 8 * Wsum pre2) (blk.size + pv.size + nx.size) false) (16 + 8 * Wsum (pre2 ++ [pv])) = false
            have ho := readTag_makeBlock_out (m := (toggleBlock s.heap.mem (16 + 8 * Wsum (pre2 ++ [pv])))) (p := (16 + 8 * Wsum pre2))
              (a := (16 + 8 * Wsum (pre2 ++ [pv]) - 4)) (b := false) hSe hS1 hSu
              (by omega)
              ⟨Or.inr (by rw [hWc2]; omega), Or.inl (by rw [hWc2]; omega)⟩
            have hr : readTag (makeBlock (toggleBlock s.heap.mem (16 + 8 * Wsum (pre2 ++ [pv]))) (16 + 8 * Wsum pre2) (blk.size + pv.size + nx.size) false) (16 + 8 * Wsum (pre2 ++ [pv]) - 4) =
                blk.size := by
              rw [ho]
              exact hT_H
            rw [isAllocated_val hr]
            simp only [decide_eq_false_iff_not]
            omega


theorem memcpy_out {m : Mem} {dst src n x : Nat}
    (h : x < dst ∨ dst + n ≤ x) : memcpy m dst src n x = m x := by
  unfold memcpy
  rw [if_neg (by omega)]

theorem replace_preserves {pre post pre0 post0 mid' : List Blk}
    {blk b : Blk}
    (heq : pre ++ blk :: post = pre0 ++ b :: post0)
    (hne : blk ≠ b) (hw : Wsum mid' = blk.size) :
    ∃ pre1 post1, pre ++ mid' ++ post = pre1 ++ b :: post1 ∧
      Wsum pre1 = Wsum pre0 := by
  rcases List.append_eq_append_iff.mp heq with ⟨a2, ha1, ha2⟩ | ⟨c2, hc1, hc2⟩
  · cases a2 with
    | nil =>
      simp only [List.nil_append] at ha2
      injection ha2 with h1 h2
      exact absurd h1 hne
    | cons x a3 =>
      rw [List.cons_append] at ha2
      injection ha2 with h1 h2
      refine ⟨pre ++ mid' ++ a3, post0, ?_, ?_⟩
      · rw [h2]
        simp
      · rw [ha1]
        rw [Wsum_append, Wsum_append, Wsum_append]
        rw [show Wsum (x :: a3) = x.size + Wsum a3 from rfl]
        rw [hw, h1]
        ring
  · cases c2 with
    | nil =>
      simp only [List.nil_append] at hc2
      injection hc2 with h1 h2
      exact absurd h1.symm hne
    | cons y c3 =>
      rw [List.cons_append] at hc2
      injection hc2 with h1 h2
      refine ⟨pre0, c3 ++ mid' ++ post, ?_, rfl⟩
      rw [hc1, ← h1]
      simp

theorem concat_preserves (nb : Blk) {init2 pre0 post0 : List Blk}
    {lastb b : Blk}
    (heq : init2 ++ [lastb] = pre0 ++ b :: post0) (hne : lastb ≠ b) :
    ∃ post1, init2 ++ [nb] = pre0 ++ b :: post1 := by
  rcases List.eq_nil_or_concat post0 with rfl | ⟨p3, x, rfl⟩
  · have hlast : lastb = b := by
      have h := congrArg List.getLast? heq
      simp at h
      exact h
    exact absurd hlast hne
  · rw [List.concat_eq_append] at heq
    have heq2 : init2 ++ [lastb] = (pre0 ++ b :: p3) ++ [x] := by
      rw [heq]
      simp
    obtain ⟨h3, h4⟩ := List.append_inj' heq2 rfl
    refine ⟨p3 ++ [nb], ?_⟩
    rw [h3]
    simp

theorem pos_unique {pre : List Blk} :
    ∀ {bs post pre' post' : List Blk} {b b' : Blk},
    (∀ c ∈ bs, 1 ≤ c.size) →
    bs = pre ++ b :: post → bs = pre' ++ b' :: post' →
    Wsum pre = Wsum pre' → b = b' := by
  induction pre with
  | nil =>
    intro bs post pre' post' b b' hsz h1 h2 hW
    cases pre' with
    | nil =>
      rw [h1] at h2
      simp only [List.nil_append] at h2
      injection h2 with hh ht
    | cons c r =>
      have hc : c ∈ bs := by rw [h2]; simp
      have := hsz c hc
      rw [show Wsum ([] : List Blk) = 0 from rfl] at hW
      rw [show Wsum (c :: r) = c.size + Wsum r from rfl] at hW
      omega
  | cons a r ih =>
    intro bs post pre' post' b b' hsz h1 h2 hW
    cases pre' with
    | nil =>
      have ha : a ∈ bs := by rw [h1]; simp
      have := hsz a ha
      rw [show Wsum (a :: r) = a.size + Wsum r from rfl] at hW
      rw [show Wsum ([] : List Blk) = 0 from rfl] at hW
      omega
    | cons c r' =>
      rw [h1] at h2
      rw [List.cons_append, List.cons_append] at h2
      injection h2 with hh ht
      refine ih ?_ rfl ht ?_
      · intro c2 hc2
        refine hsz c2 ?_
        rw [h1, List.cons_append]
        exact List.mem_cons_of_mem _ hc2
      · rw [show Wsum (a :: r) = a.size + Wsum r from rfl,
          show Wsum (c :: r') = c.size + Wsum r' from rfl, hh] at hW
        omega

theorem extend_fail {s : AState} {bs init2 : List Blk} {lastb : Blk} {w : Nat}
    (hWF : WF s bs) (hdec : bs = init2 ++ [lastb])
    (hlw : lastb.alloc = false → lastb.size < w)
    (hwU : 8 * w < U32)
    (hfail : ¬(8 * (w - cond lastb.alloc 0 lastb.size) < 2147483648 ∧
      s.heap.brk + 8 * (w - cond lastb.alloc 0 lastb.size) ≤ s.heap.cap)) :
    extendHeap s (16 + 8 * Wsum bs) w = none := by
  have hW : Wsum bs = Wsum init2 + lastb.size := by
    rw [Wsum_decomp hdec]
    simp [Wsum]
  have hlb : blockAt s.heap.mem (16 + 8 * Wsum init2) lastb :=
    hWF.blockAt_decomp hdec
  have hlm : lastb ∈ bs := by rw [hdec]; simp
  have hle : lastb.size % 2 = 0 := (hWF.sizes lastb hlm).2
  have hl2 : 2 ≤ lastb.size := (hWF.sizes lastb hlm).1
  have hfoot2 : readTag s.heap.mem (16 + 8 * Wsum bs - 4 - 4) = tagV lastb := by
    have h := hlb.2
    rw [show 16 + 8 * Wsum init2 + 8 * lastb.size - 8 =
      16 + 8 * Wsum bs - 4 - 4 from by omega] at h
    exact h
  have hszE4 : sizeOf s.heap.mem (16 + 8 * Wsum bs - 4) = lastb.size := by
    rw [sizeOf_val hfoot2]
    unfold tagV
    cases lastb.alloc <;> simp <;> omega
  have hpb : prevBlock s.heap.mem (16 + 8 * Wsum bs) = 16 + 8 * Wsum init2 := by
    unfold prevBlock header TAG_SIZE WORD_SIZE
    rw [hszE4]
    omega
  have hprevAlloc : isAllocated s.heap.mem
      (prevBlock s.heap.mem (16 + 8 * Wsum bs)) = lastb.alloc := by
    rw [hpb, isAllocated_of_blockAt hlb hle]
  have hasz : (if isAllocated s.heap.mem
        (prevBlock s.heap.mem (16 + 8 * Wsum bs)) then w
      else (w + U32 - sizeOf s.heap.mem
        (prevBlock s.heap.mem (16 + 8 * Wsum bs))) % U32) =
      w - cond lastb.alloc 0 lastb.size := by
    rw [hprevAlloc, hpb, sizeOf_of_blockAt hlb hle]
    cases hla : lastb.alloc with
    | true => simp
    | false =>
      simp only [Bool.false_eq_true, if_false, Bool.cond_false]
      have hls := hlw hla
      rw [U32_eq] at *
      omega
  by_cases h31 : 8 * (w - cond lastb.alloc 0 lastb.size) < 2147483648
  · exact extendHeap_sbrk_fail hasz h31 (by omega)
  · simp only [extendHeap]
    rw [hasz]
    rw [show (w - cond lastb.alloc 0 lastb.size) * WORD_SIZE % U32 =
      8 * (w - cond lastb.alloc 0 lastb.size) from by
      unfold WORD_SIZE
      rw [U32_eq] at *
      omega]
    rw [if_neg h31]
    unfold mem_sbrk
    rw [if_pos (by
      rw [U32_eq] at *
      omega)]

theorem malloc_oom {s : AState} {bs init2 : List Blk} {lastb : Blk} {N : Nat}
    (hWF : WF s bs) (hN : 0 < N) (hOV : N + 24 ≤ U32)
    (hdec : bs = init2 ++ [lastb])
    (hnofit : ∀ c ∈ bs, c.alloc = true ∨ c.size < actSizeCalc N)
    (hfail : ¬(8 * (actSizeCalc N - cond lastb.alloc 0 lastb.size) <
        2147483648 ∧
      s.heap.brk + 8 * (actSizeCalc N - cond lastb.alloc 0 lastb.size) ≤
        s.heap.cap)) :
    mm_malloc s N = (none, s) := by
  have hlen : bs.length < s.heap.brk + 1 := by
    have h1 := length_le_Wsum hWF.sizes
    have h3 := hWF.brk
    omega
  have hscan : findFit s.heap.mem (actSizeCalc N) 16 (s.heap.brk + 1) =
      some (Sum.inr (16 + 8 * Wsum bs)) := by
    have hE : readTag s.heap.mem (16 + 8 * Wsum bs - 4) = 1 := by
      rw [show 16 + 8 * Wsum bs - 4 = 12 + 8 * Wsum bs from by omega]
      exact hWF.epilogue
    exact findFit_none hWF.blocks hWF.sizes hE hlen hnofit
  have hwU : 8 * actSizeCalc N < U32 := by
    rw [actSizeCalc_eq hOV]
    rw [U32_eq] at *
    omega
  have hlw : lastb.alloc = false → lastb.size < actSizeCalc N := by
    intro hla
    rcases hnofit lastb (by rw [hdec]; simp) with h | h
    · rw [hla] at h
      exact absurd h (by decide)
    · exact h
  have he := extend_fail hWF hdec hlw hwU hfail
  simp only [mm_malloc]
  rw [if_neg (by omega), hWF.base, hscan]
  show (match extendHeap s (16 + 8 * Wsum bs) (actSizeCalc N) with
    | none => ((none : Option Nat), s)
    | some (p2, s2) =>
      (some p2, ⟨⟨makeBlock s2.heap.mem p2 (actSizeCalc N) true,
        s2.heap.brk, s2.heap.cap⟩, s2.heapBase⟩)) = (none, s)
  rw [he]

theorem malloc_WF {s : AState} {bs : List Blk} {N : Nat}
    (hWF : WF s bs) (hOV : N + 24 ≤ U32) :
    ∃ bs1, WF (mm_malloc s N).2 bs1 ∧
      (∀ q, (mm_malloc s N).1 = some q →
        (∃ preq postq,
          bs1 = preq ++ (⟨actSizeCalc N, true⟩ : Blk) :: postq ∧
          q = 16 + 8 * Wsum preq) ∧
        ((∃ pre blk post, bs = pre ++ blk :: post ∧ blk.alloc = false ∧
          q = 16 + 8 * Wsum pre) ∨ q = 16 + 8 * Wsum bs)) ∧
      (∀ pre0 b post0, bs = pre0 ++ b :: post0 → b.alloc = true →
        ∃ pre1 post1, bs1 = pre1 ++ b :: post1 ∧ Wsum pre1 = Wsum pre0) := by
  by_cases h0 : N = 0
  · have hz : mm_malloc s N = (none, s) := by
      simp only [mm_malloc, if_pos h0]
    rw [hz]
    refine ⟨bs, hWF, ?_, ?_⟩
    · intro q hq
      exact absurd hq (by simp)
    · intro pre0 b post0 hdec0 hb
      exact ⟨pre0, post0, hdec0, rfl⟩
  · have hN : 0 < N := by omega
    by_cases hfit : ∃ c ∈ bs, c.alloc = false ∧ actSizeCalc N ≤ c.size
    · obtain ⟨pre, blk, post, hdec, hfree, hfits, hfirst⟩ :=
        exists_first_fit hfit
      obtain ⟨hret, hWF1⟩ := malloc_fit hWF hN hOV hdec hfirst hfree hfits
      refine ⟨_, hWF1, ?_, ?_⟩
      · intro q hq
        rw [hret] at hq
        have hq2 : q = 16 + 8 * Wsum pre := (Option.some.inj hq).symm
        constructor
        · refine ⟨pre, (if actSizeCalc N < blk.size then
            [(⟨blk.size - actSizeCalc N, false⟩ : Blk)]
            else ([] : List Blk)) ++ post, ?_, hq2⟩
          by_cases hc : actSizeCalc N < blk.size
          · rw [if_pos hc, if_pos hc]
            simp
          · rw [if_neg hc, if_neg hc]
            simp
        · exact Or.inl ⟨pre, blk, post, hdec, hfree, hq2⟩
      · intro pre0 b post0 hdec0 hb
        have hne : blk ≠ b := by
          intro h
          rw [h] at hfree
          rw [hfree] at hb
          exact Bool.noConfusion hb
        have heq : pre ++ blk :: post = pre0 ++ b :: post0 := by
          rw [← hdec, ← hdec0]
        have hw : Wsum (if actSizeCalc N < blk.size then
            [(⟨actSizeCalc N, true⟩ : Blk),
              ⟨blk.size - actSizeCalc N, false⟩]
          else [(⟨actSizeCalc N, true⟩ : Blk)]) = blk.size := by
          by_cases hc : actSizeCalc N < blk.size
          · rw [if_pos hc]
            show actSizeCalc N + (blk.size - actSizeCalc N + 0) = blk.size
            omega
          · rw [if_neg hc]
            show actSizeCalc N + 0 = blk.size
            omega
        exact replace_preserves heq hne hw
    · have hnofit : ∀ c ∈ bs, c.alloc = true ∨ c.size < actSizeCalc N := by
        intro c hc
        cases hca : c.alloc with
        | true => exact Or.inl rfl
        | false =>
          right
          by_contra hge
          exact hfit ⟨c, hc, hca, by omega⟩
      rcases List.eq_nil_or_concat bs with hnil | ⟨init2, lastb, hdec⟩
      · exact absurd hnil hWF.nonempty
      rw [List.concat_eq_append] at hdec
      have hlw : lastb.alloc = false → lastb.size < actSizeCalc N := by
        intro hla
        rcases hnofit lastb (by rw [hdec]; simp) with h | h
        · rw [hla] at h
          exact absurd h (by decide)
        · exact h
      have hW : Wsum bs = Wsum init2 + lastb.size := by
        rw [Wsum_decomp hdec]
        simp [Wsum]
      have hbrk := hWF.brk
      have hcap31 := hWF.cap
      by_cases hcap : 8 * (actSizeCalc N - cond lastb.alloc 0 lastb.size) <
          2147483648 ∧
        s.heap.brk + 8 * (actSizeCalc N - cond lastb.alloc 0 lastb.size) ≤
          s.heap.cap
      · have h31full : 8 * actSizeCalc N < 2147483648 := by
          cases hla : lastb.alloc with
          | true =>
            rw [hla] at hcap
            simp only [Bool.cond_true, Nat.sub_zero] at hcap
            omega
          | false =>
            rw [hla] at hcap
            simp only [Bool.cond_false] at hcap
            have hls := hlw hla
            omega
        have hcap2 : s.heap.brk +
            8 * (actSizeCalc N - cond lastb.alloc 0 lastb.size) ≤
            s.heap.cap := hcap.2
        obtain ⟨hret, hbrk2, hWF1⟩ :=
          malloc_nofit hWF hN hOV hdec hnofit h31full hcap2
        refine ⟨_, hWF1, ?_, ?_⟩
        · intro q hq
          rw [hret] at hq
          have hq2 : q = cond lastb.alloc (16 + 8 * Wsum bs)
              (16 + 8 * Wsum init2) := (Option.some.inj hq).symm
          constructor
          · refine ⟨cond lastb.alloc bs init2, [], rfl, ?_⟩
            rw [hq2]
            cases lastb.alloc <;> simp
          · cases hla : lastb.alloc with
            | true =>
              right
              rw [hq2, hla]
              rfl
            | false =>
              left
              refine ⟨init2, lastb, [], hdec, hla, ?_⟩
              rw [hq2, hla]
              rfl
        · intro pre0 b post0 hdec0 hb
          cases hla : lastb.alloc with
          | true =>
            refine ⟨pre0, post0 ++ [(⟨actSizeCalc N, true⟩ : Blk)], ?_, rfl⟩
            show bs ++ [(⟨actSizeCalc N, true⟩ : Blk)] =
              pre0 ++ b :: (post0 ++ [(⟨actSizeCalc N, true⟩ : Blk)])
            rw [hdec0]
            simp
          | false =>
            have hne : lastb ≠ b := by
              intro h
              rw [h] at hla
              rw [hla] at hb
              exact Bool.noConfusion hb
            have heq : init2 ++ [lastb] = pre0 ++ b :: post0 := by
              rw [← hdec, ← hdec0]
            obtain ⟨post1, hp1⟩ :=
              concat_preserves (⟨actSizeCalc N, true⟩ : Blk) heq hne
            refine ⟨pre0, post1, ?_, rfl⟩
            exact hp1
      · have hz := malloc_oom hWF hN hOV hdec hnofit hcap
        rw [hz]
        refine ⟨bs, hWF, ?_, ?_⟩
        · intro q hq
          exact absurd hq (by simp)
        · intro pre0 b post0 hdec0 hb
          exact ⟨pre0, post0, hdec0, rfl⟩

theorem WF_payload {s : AState} {bs pre post : List Blk} {b : Blk}
    {m' : Mem} {n : Nat}
    (hWF : WF s bs) (hdec : bs = pre ++ b :: post)
    (hn : n + 8 ≤ 8 * b.size)
    (hag : ∀ x, x < 16 + 8 * Wsum pre ∨ 16 + 8 * Wsum pre + n ≤ x →
      m' x = s.heap.mem x)
    (hB' : Bytes m') :
    WF ⟨⟨m', s.heap.brk, s.heap.cap⟩, s.heapBase⟩ bs := by
  have hbm : b ∈ bs := by rw [hdec]; simp
  have hbe : b.size % 2 = 0 := (hWF.sizes b hbm).2
  have hb2 : 2 ≤ b.size := (hWF.sizes b hbm).1
  have hblk : blockAt s.heap.mem (16 + 8 * Wsum pre) b :=
    hWF.blockAt_decomp hdec
  have hWd : Wsum bs = Wsum pre + b.size + Wsum post := Wsum_decomp hdec
  have hbs2 : blocksAt s.heap.mem 16 (pre ++ [b] ++ post) := by
    have h := hWF.blocks
    rw [hdec] at h
    simpa using h
  have hmid : blocksAt m' (16 + 8 * Wsum pre) [b] := by
    refine ⟨⟨?_, ?_⟩, trivial⟩
    · rw [readTag_congr (fun x hx1 hx2 => hag x (Or.inl (by omega)))]
      exact hblk.1
    · rw [readTag_congr (fun x hx1 hx2 => hag x (Or.inr (by omega)))]
      exact hblk.2
  refine ⟨hB', hWF.base, hWF.nonempty, ?_, ?_, ?_, hWF.brk, hWF.brkcap,
    hWF.cap, hWF.sizes, hWF.noadj⟩
  · show readTag m' 8 % 2 = 1
    rw [readTag_congr (fun x hx1 hx2 => hag x (Or.inl (by omega)))]
    exact hWF.prologue
  · show blocksAt m' 16 bs
    rw [hdec]
    have hsur := blocksAt_surgery
      (fun c hc => by
        have := hWF.sizes c (by rw [hdec]; exact List.mem_append_left _ hc)
        omega)
      (fun c hc => by
        have hbm2 : c ∈ bs := by
          rw [hdec]
          exact List.mem_append_right _ (List.mem_cons_of_mem _ hc)
        have := hWF.sizes c hbm2
        omega)
      (show Wsum [b] = Wsum [b] from rfl)
      (fun x hx => hag x (by
        rw [show Wsum [b] = b.size + 0 from rfl] at hx
        omega))
      hbs2 hmid
    simpa using hsur
  · show readTag m' (12 + 8 * Wsum bs) = 1
    rw [readTag_congr (fun x hx1 hx2 => hag x (Or.inr (by
      rw [hWd] at hx1
      omega)))]
    exact hWF.epilogue

theorem mm_realloc_none {s : AState} {p N : Nat} (hp : p ≠ 0) (hN : N ≠ 0)
    (h : (mm_malloc s N).1 = none) : mm_realloc s p N = (none, s) := by
  have hms : mm_malloc s N = (none, s) := by
    have he : mm_malloc s N = ((mm_malloc s N).1, (mm_malloc s N).2) :=
      Prod.mk.eta.symm
    rw [h, mm_malloc_none h] at he
    exact he
  simp only [mm_realloc]
  rw [if_neg hp, if_neg hN, hms]

theorem realloc_fst {s : AState} {p N : Nat} (hp : p ≠ 0) (hN : N ≠ 0) :
    (mm_realloc s p N).1 = (mm_malloc s N).1 := by
  simp only [mm_realloc]
  rw [if_neg hp, if_neg hN]
  cases hmm : mm_malloc s N with
  | mk f t => cases f <;> rfl

theorem realloc_spec {s : AState} {bs pre0 post0 : List Blk} {b : Blk}
    {N : Nat}
    (hWF : WF s bs) (hdec0 : bs = pre0 ++ b :: post0) (hb : b.alloc = true)
    (hN : 0 < N) (hOV : N + 24 ≤ U32) :
    ∃ bs3, WF (mm_realloc s (16 + 8 * Wsum pre0) N).2 bs3 := by
  have hp0 : 16 + 8 * Wsum pre0 ≠ 0 := by omega
  obtain ⟨bs1, hWF1, hqchar, hmap⟩ := malloc_WF hWF hOV
  cases hq : (mm_malloc s N).1 with
  | none =>
    have hr := mm_realloc_none hp0 (by omega) hq
    rw [hr]
    exact ⟨bs, hWF⟩
  | some q =>
    obtain ⟨⟨preq, postq, hdecq, hq2⟩, hold⟩ := hqchar q hq
    obtain ⟨pre1, post1, hdec1, hWeq⟩ := hmap pre0 b post0 hdec0 hb
    have hms : mm_malloc s N = (some q, (mm_malloc s N).2) := by
      have he : mm_malloc s N = ((mm_malloc s N).1, (mm_malloc s N).2) :=
        Prod.mk.eta.symm
      rw [hq] at he
      exact he
    have hr : mm_realloc s (16 + 8 * Wsum pre0) N = (some q,
        mm_free ⟨⟨memcpy (mm_malloc s N).2.heap.mem q (16 + 8 * Wsum pre0)
        (if N < sizeOf (mm_malloc s N).2.heap.mem (16 + 8 * Wsum pre0) * WORD_SIZE % U32 then N
          else sizeOf (mm_malloc s N).2.heap.mem (16 + 8 * Wsum pre0) * WORD_SIZE % U32),
        (mm_malloc s N).2.heap.brk, (mm_malloc s N).2.heap.cap⟩,
        (mm_malloc s N).2.heapBase⟩ (16 + 8 * Wsum pre0)) := by
      simp only [mm_realloc]
      rw [if_neg hp0, if_neg (by omega), hms]
    have hnle : (if N < sizeOf (mm_malloc s N).2.heap.mem (16 + 8 * Wsum pre0) * WORD_SIZE % U32 then N
          else sizeOf (mm_malloc s N).2.heap.mem (16 + 8 * Wsum pre0) * WORD_SIZE % U32) ≤ N := by
      split
      · exact Nat.le_refl N
      · omega
    have hw2 : 2 ≤ actSizeCalc N := actSizeCalc_pos hN hOV
    have hpay : N + 8 ≤ 8 * actSizeCalc N := actSizeCalc_payload hOV
    have hWF2 : WF ⟨⟨memcpy (mm_malloc s N).2.heap.mem q (16 + 8 * Wsum pre0)
        (if N < sizeOf (mm_malloc s N).2.heap.mem (16 + 8 * Wsum pre0) * WORD_SIZE % U32 then N
          else sizeOf (mm_malloc s N).2.heap.mem (16 + 8 * Wsum pre0) * WORD_SIZE % U32),
        (mm_malloc s N).2.heap.brk, (mm_malloc s N).2.heap.cap⟩,
        (mm_malloc s N).2.heapBase⟩ bs1 := by
      refine WF_payload (n := (if N < sizeOf (mm_malloc s N).2.heap.mem (16 + 8 * Wsum pre0) * WORD_SIZE % U32 then N
          else sizeOf (mm_malloc s N).2.heap.mem (16 + 8 * Wsum pre0) * WORD_SIZE % U32)) hWF1 hdecq ?_ ?_ ?_
      · show (if N < sizeOf (mm_malloc s N).2.heap.mem (16 + 8 * Wsum pre0) * WORD_SIZE % U32 then N
          else sizeOf (mm_malloc s N).2.heap.mem (16 + 8 * Wsum pre0) * WORD_SIZE % U32) + 8 ≤ 8 * actSizeCalc N
        omega
      · intro x hx
        refine memcpy_out ?_
        rw [hq2]
        exact hx
      · exact bytes_memcpy hWF1.bytes _ _ _
    have hfree := free_spec hWF2 hdec1 hb
    rw [hr]
    refine ⟨coalesceSpec pre1 b.size post1, ?_⟩
    show WF (mm_free ⟨⟨memcpy (mm_malloc s N).2.heap.mem q (16 + 8 * Wsum pre0)
        (if N < sizeOf (mm_malloc s N).2.heap.mem (16 + 8 * Wsum pre0) * WORD_SIZE % U32 then N
          else sizeOf (mm_malloc s N).2.heap.mem (16 + 8 * Wsum pre0) * WORD_SIZE % U32),
        (mm_malloc s N).2.heap.brk, (mm_malloc s N).2.heap.cap⟩,
        (mm_malloc s N).2.heapBase⟩ (16 + 8 * Wsum pre0))
      (coalesceSpec pre1 b.size post1)
    rw [show 16 + 8 * Wsum pre1 = 16 + 8 * Wsum pre0 from by rw [hWeq]]
      at hfree
    exact hfree.1

theorem init_WF {m : Mem} {cap : Nat} {s : AState}
    (hB : Bytes m) (hcap : cap ≤ 2 ^ 31) (h : mm_init m cap = some s) :
    WF s [⟨6, false⟩] := by
  by_cases hc : 64 ≤ cap
  · have hsb : mem_sbrk (mem_init m cap) (8 * (WORD_SIZE : Int)) =
        some (0, ⟨m, 64, cap⟩) := by
      rw [show (8 * (WORD_SIZE : Int)) = ((64 : Nat) : Int) from by
        norm_num [WORD_SIZE]]
      rw [mem_sbrk_pos (by show (0 : Nat) + 64 ≤ cap; omega)]
      rfl
    have h6e : (6 : Nat) % 2 = 0 := by decide
    have h61 : 1 ≤ (6 : Nat) := by decide
    have h6u : (6 : Nat) + 1 < U32 := by
      rw [U32_eq]
      omega
    have hB1 : Bytes (writeByte m 8 1) := bytes_writeByte hB _ _
    have hh : readTag (makeBlock (writeByte m 8 1) 16 6 false) (16 - 4) = 6 := by
      have h2 := readTag_makeBlock_header (m := (writeByte m 8 1)) (p := 16) (t := 6)
        (b := false) h6e h61 h6u (by omega)
      simpa using h2
    have hf : readTag (makeBlock (writeByte m 8 1) 16 6 false) 56 = 6 := by
      have h2 := readTag_makeBlock_footer (m := (writeByte m 8 1)) (p := 16) (t := 6)
        (b := false) h6e h61 h6u (by omega)
      simpa using h2
    have hsm : sizeOf (makeBlock (writeByte m 8 1) 16 6 false) 16 = 6 := by
      rw [sizeOf_val hh]
    have hnh : nextHeader (makeBlock (writeByte m 8 1) 16 6 false) 16 = 60 := by
      unfold nextHeader nextBlock TAG_SIZE WORD_SIZE
      rw [hsm]
    have hmm : mm_init m cap = some ⟨⟨(writeTag (makeBlock (writeByte m 8 1) 16 6 false) 60 1), 64, cap⟩, 16⟩ := by
      simp only [mm_init]
      rw [hsb]
      show some (⟨⟨writeTag (makeBlock (writeByte m 8 1) 16 6 false) (nextHeader (makeBlock (writeByte m 8 1) 16 6 false) 16) 1, 64, cap⟩, 16⟩ :
        AState) = some ⟨⟨(writeTag (makeBlock (writeByte m 8 1) 16 6 false) 60 1), 64, cap⟩, 16⟩
      rw [hnh]
    rw [hmm] at h
    have hs := Option.some.inj h
    subst hs
    have hpro : readTag (writeByte m 8 1) 8 % 2 = 1 := by
      unfold readTag
      rw [writeByte_self, writeByte_other (by omega),
        writeByte_other (by omega), writeByte_other (by omega)]
      omega
    refine ⟨?_, rfl, by simp, ?_, ?_, ?_, ?_, ?_, ?_, ?_, ?_⟩
    · exact bytes_writeTag (bytes_makeBlock hB1 _ _ _) _ _
    · show readTag (writeTag (makeBlock (writeByte m 8 1) 16 6 false) 60 1) 8 % 2 = 1
      rw [readTag_writeTag_out (by omega)]
      rw [readTag_makeBlock_out h6e h61 h6u (by omega)
        (by constructor <;> left <;> omega)]
      exact hpro
    · show blocksAt (writeTag (makeBlock (writeByte m 8 1) 16 6 false) 60 1) 16 [(⟨6, false⟩ : Blk)]
      refine ⟨⟨?_, ?_⟩, trivial⟩
      · show readTag (writeTag (makeBlock (writeByte m 8 1) 16 6 false) 60 1) (16 - 4) = tagV ⟨6, false⟩
        rw [readTag_writeTag_out (by omega), hh, tagV_mk]
        simp
      · show readTag (writeTag (makeBlock (writeByte m 8 1) 16 6 false) 60 1) 56 = tagV ⟨6, false⟩
        rw [readTag_writeTag_out (by omega), hf, tagV_mk]
        simp
    · show readTag (writeTag (makeBlock (writeByte m 8 1) 16 6 false) 60 1) 60 = 1
      rw [readTag_writeTag_self, U32_eq]
    · show (64 : Nat) = 16 + 8 * Wsum [(⟨6, false⟩ : Blk)]
      rfl
    · exact hc
    · exact hcap
    · intro c hc2
      have : c = (⟨6, false⟩ : Blk) := by simpa using hc2
      rw [this]
      exact ⟨by decide, by decide⟩
    · show noAdjFree [(⟨6, false⟩ : Blk)]
      unfold noAdjFree
      simp
  · exfalso
    simp only [mm_init] at h
    rw [show mem_sbrk (mem_init m cap) (8 * (WORD_SIZE : Int)) = none from by
      unfold mem_sbrk mem_init WORD_SIZE
      rw [if_neg (by omega), if_pos (by simp; omega)]] at h
    exact Option.noConfusion h

theorem Reach_WF {s : AState} (h : Reach s) : ∃ bs, WF s bs := by
  induction h with
  | init m cap s hB hcap hinit => exact ⟨[⟨6, false⟩], init_WF hB hcap hinit⟩
  | malloc s N hs hOV ih =>
    obtain ⟨bs, hWF⟩ := ih
    obtain ⟨bs1, hWF1, hq, hm⟩ := malloc_WF hWF hOV
    exact ⟨bs1, hWF1⟩
  | free s p hs hp ih =>
    obtain ⟨bs0, pre0, b, post0, hWF0, hdec0, hb, hp0⟩ := hp
    subst hp0
    exact ⟨coalesceSpec pre0 b.size post0, (free_spec hWF0 hdec0 hb).1⟩
  | reallocNull s N hs hOV ih =>
    obtain ⟨bs, hWF⟩ := ih
    have hr : mm_realloc s 0 N = mm_malloc s N := by
      simp only [mm_realloc]
      rw [if_pos trivial]
    rw [hr]
    obtain ⟨bs1, hWF1, hq, hm⟩ := malloc_WF hWF hOV
    exact ⟨bs1, hWF1⟩
  | realloc s p N hs hp hOV ih =>
    obtain ⟨bs0, pre0, b, post0, hWF0, hdec0, hb, hp0⟩ := hp
    subst hp0
    by_cases hN : N = 0
    · subst hN
      have hr : mm_realloc s (16 + 8 * Wsum pre0) 0 =
          (none, mm_free s (16 + 8 * Wsum pre0)) := by
        simp only [mm_realloc]
        rw [if_neg (by omega), if_pos trivial]
      rw [hr]
      exact ⟨coalesceSpec pre0 b.size post0, (free_spec hWF0 hdec0 hb).1⟩
    · exact realloc_spec hWF0 hdec0 hb (by omega) hOV

theorem bytes_zeroMem : Bytes zeroMem := fun _ => by
  show (0 : Nat) < 256
  decide

theorem st0_WF : WF st0 [⟨6, false⟩] :=
  init_WF bytes_zeroMem (by norm_num)
    (show mm_init zeroMem 1024 = some st0 from by rfl)

theorem stSmall_WF : WF stSmall [⟨6, false⟩] :=
  init_WF bytes_zeroMem (by norm_num)
    (show mm_init zeroMem 64 = some stSmall from by rfl)

theorem st1_WF : WF st1 [⟨2, true⟩, ⟨4, false⟩] := by
  have h := (malloc_fit (N := 8) st0_WF (by decide) (by decide)
    (show [(⟨6, false⟩ : Blk)] = [] ++ (⟨6, false⟩ : Blk) :: [] from rfl)
    (by simp) rfl (by decide)).2
  have hl : (([] : List Blk) ++
      (if actSizeCalc 8 < (⟨6, false⟩ : Blk).size then
        [(⟨actSizeCalc 8, true⟩ : Blk),
          ⟨(⟨6, false⟩ : Blk).size - actSizeCalc 8, false⟩]
      else [(⟨actSizeCalc 8, true⟩ : Blk)]) ++ []) =
      [(⟨2, true⟩ : Blk), ⟨4, false⟩] := by decide
  rw [hl] at h
  exact h

/-- Claim C1 (amended).  `mm_realloc` never resizes in place: whenever
`reallocate(p, N)` on an allocated block base `p` returns an address, that
address is a different base — the code unconditionally allocates a new
block, copies, and frees the old one, even when the computed `blockWords`
fits the old block. -/
theorem C1_realloc_never_in_place {s : AState} {bs pre0 post0 : List Blk}
    {b : Blk} {N q : Nat}
    (hWF : WF s bs) (hdec0 : bs = pre0 ++ b :: post0) (hb : b.alloc = true)
    (hN : 0 < N) (hOV : N + 24 ≤ U32)
    (hq : (mm_realloc s (16 + 8 * Wsum pre0) N).1 = some q) :
    q ≠ 16 + 8 * Wsum pre0 := by
  rw [realloc_fst (by omega) (by omega)] at hq
  obtain ⟨bs1, hWF1, hqchar, hmap⟩ := malloc_WF hWF hOV
  obtain ⟨hnew, hold⟩ := hqchar q hq
  intro hcontra
  rcases hold with ⟨pre, blk, post, hdec, hfree, hq2⟩ | hq2
  · have hW : Wsum pre = Wsum pre0 := by omega
    have hsz : ∀ c ∈ bs, 1 ≤ c.size := fun c hcmem => by
      have := hWF.sizes c hcmem
      omega
    have hbb : blk = b := pos_unique hsz hdec hdec0 hW
    rw [hbb, hb] at hfree
    exact Bool.noConfusion hfree
  · have hWd : Wsum bs = Wsum pre0 + b.size + Wsum post0 := Wsum_decomp hdec0
    have hb2 : 2 ≤ b.size := (hWF.sizes b (by rw [hdec0]; simp)).1
    omega

/-- Witness for C1: on `st1` the two-word allocated block at base 16 is
reallocated to the same payload size, and the result is base 32, not 16. -/
theorem C1_realloc_never_in_place_witness :
    (mm_realloc st1 (16 + 8 * Wsum ([] : List Blk)) 8).1 = some 32 ∧
    (32 : Nat) ≠ 16 + 8 * Wsum ([] : List Blk) :=
  ⟨by decide, C1_realloc_never_in_place (N := 8) st1_WF
    (show [(⟨2, true⟩ : Blk), ⟨4, false⟩] =
      [] ++ (⟨2, true⟩ : Blk) :: [⟨4, false⟩] from rfl)
    rfl (by decide) (by decide) (by decide)⟩

/-- Counterexample to C1 as stated: in `st1` the block at base 16 has
`oldWords = 2` and `reallocate(16, 8)` has `blockWords = 2 ≤ oldWords`,
yet the call returns base 32, not 16. -/
theorem C1_counterexample :
    sizeOf st1.heap.mem 16 = 2 ∧ actSizeCalc 8 = 2 ∧
    (mm_realloc st1 16 8).1 = some 32 ∧
    (mm_realloc st1 16 8).1 ≠ some 16 := by decide

/-- Claim C2 (code bug).  The moving `reallocate(16, 16)` on `st1` copies
`min(N, oldWords·8) = 16` bytes — not the specified
`min(N, oldWords·8 − 8) = 8` — so the old block`s footer tag (value 3)
and the next block`s header tag (value 5) are copied into the new
payload at bytes 40 and 44. -/
theorem C2_copy_overrun :
    (mm_realloc st1 16 16).1 = some 32 ∧
    (if (16 : Nat) < sizeOf (mm_malloc st1 16).2.heap.mem 16 *
        WORD_SIZE % U32 then (16 : Nat)
      else sizeOf (mm_malloc st1 16).2.heap.mem 16 * WORD_SIZE % U32) =
      16 ∧
    readTag (mm_realloc st1 16 16).2.heap.mem 40 = 3 ∧
    readTag (mm_realloc st1 16 16).2.heap.mem 44 = 5 := by decide

/-- Claim C3 (amended).  For `0 < N` with `N + 24 ≤ 2³²`, a returned
address heads a block of exactly `(N + 23) / 16 * 2 = ceil((N+8)/16)·2`
words, the payload holds `N` bytes, and the word count is even and at
least 2. -/
theorem C3_block_words {s : AState} {bs : List Blk} {N q : Nat}
    (hWF : WF s bs) (hN : 0 < N) (hOV : N + 24 ≤ U32)
    (hq : (mm_malloc s N).1 = some q) :
    sizeOf (mm_malloc s N).2.heap.mem q = (N + 23) / 16 * 2 ∧
    N ≤ ((N + 23) / 16 * 2) * 8 - 8 ∧
    ((N + 23) / 16 * 2) % 2 = 0 ∧ 2 ≤ (N + 23) / 16 * 2 := by
  obtain ⟨bs1, hWF1, hqchar, hmap⟩ := malloc_WF hWF hOV
  obtain ⟨⟨preq, postq, hdecq, hq2⟩, hold⟩ := hqchar q hq
  have hblk := hWF1.blockAt_decomp hdecq
  have hsz : sizeOf (mm_malloc s N).2.heap.mem (16 + 8 * Wsum preq) =
      actSizeCalc N :=
    sizeOf_of_blockAt hblk (actSizeCalc_even N)
  refine ⟨?_, ?_, ?_, ?_⟩
  · rw [hq2, hsz]
    exact actSizeCalc_eq hOV
  · have hp := actSizeCalc_payload hOV
    rw [actSizeCalc_eq hOV] at hp
    omega
  · have h := actSizeCalc_even N
    rw [actSizeCalc_eq hOV] at h
    exact h
  · have h := actSizeCalc_pos hN hOV
    rw [actSizeCalc_eq hOV] at h
    exact h

/-- Witness for C3: `mm_malloc st0 8` returns base 16 heading a 2-word
block. -/
theorem C3_block_words_witness :
    sizeOf (mm_malloc st0 8).2.heap.mem 16 = (8 + 23) / 16 * 2 ∧
    8 ≤ ((8 + 23) / 16 * 2) * 8 - 8 ∧
    ((8 + 23) / 16 * 2) % 2 = 0 ∧ 2 ≤ (8 + 23) / 16 * 2 :=
  C3_block_words st0_WF (by decide) (by decide) (by decide)

/-- Counterexample to C3 as stated: for `N = 4294967273` the `uint32_t`
size computation overflows to 0 words, the scan "fits" the request into
the initial 6-word free block, and the returned block`s payload is far
smaller than `N`. -/
theorem C3_counterexample :
    actSizeCalc 4294967273 = 0 ∧
    (mm_malloc st0 4294967273).1 = some 16 ∧
    sizeOf (mm_malloc st0 4294967273).2.heap.mem 16 = 6 ∧
    sizeOf (mm_malloc st0 4294967273).2.heap.mem 16 * 8 - 8 <
      4294967273 := by decide

/-- Claim C4.  `allocate(N)` places the request in the first free block
(scanning from the first real block) whose size holds `blockWords`; an
exact fit flips the whole block to allocated, a larger block is split
into an allocated `blockWords` block followed by a free remainder at
`base + blockWords·8`. -/
theorem C4_first_fit {s : AState} {bs pre post : List Blk} {blk : Blk}
    {N : Nat}
    (hWF : WF s bs) (hN : 0 < N) (hOV : N + 24 ≤ U32)
    (hdec : bs = pre ++ blk :: post)
    (hfirst : ∀ c ∈ pre, c.alloc = true ∨ c.size < actSizeCalc N)
    (hfree : blk.alloc = false) (hfits : actSizeCalc N ≤ blk.size) :
    (mm_malloc s N).1 = some (16 + 8 * Wsum pre) ∧
    WF (mm_malloc s N).2
      (pre ++ (if actSizeCalc N < blk.size then
          [⟨actSizeCalc N, true⟩, ⟨blk.size - actSizeCalc N, false⟩]
        else [⟨actSizeCalc N, true⟩]) ++ post) :=
  malloc_fit hWF hN hOV hdec hfirst hfree hfits

/-- Witness for C4: `mm_malloc st0 8` splits the initial 6-word free
block into an allocated 2-word block at base 16 and a free 4-word
remainder. -/
theorem C4_first_fit_witness :
    (mm_malloc st0 8).1 = some (16 + 8 * Wsum ([] : List Blk)) ∧
    WF (mm_malloc st0 8).2
      ([] ++ (if actSizeCalc 8 < (⟨6, false⟩ : Blk).size then
          [⟨actSizeCalc 8, true⟩,
            ⟨(⟨6, false⟩ : Blk).size - actSizeCalc 8, false⟩]
        else [⟨actSizeCalc 8, true⟩]) ++ []) :=
  C4_first_fit (N := 8) st0_WF (by decide) (by decide)
    (show [(⟨6, false⟩ : Blk)] = [] ++ (⟨6, false⟩ : Blk) :: [] from rfl)
    (by simp) rfl (by decide)

/-- Claim C5.  Freeing an allocated block of size `s` yields exactly the
free block dictated by the neighbor-allocation table (`coalesceSpec`):
size `s` at `p`, `s + size(next)` at `p`, `s + size(prev)` at the
previous base, or the three-way merge at the previous base. -/
theorem C5_free_coalesce {s : AState} {bs pre post : List Blk} {blk : Blk}
    (hWF : WF s bs) (hdec : bs = pre ++ blk :: post)
    (halloc : blk.alloc = true) :
    WF (mm_free s (16 + 8 * Wsum pre)) (coalesceSpec pre blk.size post) ∧
    isAllocated (mm_free s (16 + 8 * Wsum pre)).heap.mem
      (16 + 8 * Wsum pre) = false :=
  free_spec hWF hdec halloc

/-- Witness for C5: freeing the 2-word block at base 16 of `st1` merges
with the free 4-word successor into a single 6-word free block. -/
theorem C5_free_coalesce_witness :
    WF (mm_free st1 (16 + 8 * Wsum ([] : List Blk)))
      (coalesceSpec [] (⟨2, true⟩ : Blk).size [⟨4, false⟩]) ∧
    isAllocated (mm_free st1 (16 + 8 * Wsum ([] : List Blk))).heap.mem
      (16 + 8 * Wsum ([] : List Blk)) = false :=
  C5_free_coalesce st1_WF
    (show [(⟨2, true⟩ : Blk), ⟨4, false⟩] =
      [] ++ (⟨2, true⟩ : Blk) :: [⟨4, false⟩] from rfl) rfl

/-- Claim C6.  `toggleBlock(p)` on an allocated block flips the
allocation bit in both the header and the footer while preserving the
size: afterwards both tags hold the bare size and the block reads as
free. -/
theorem C6_toggle {m : Mem} {p : Nat} {b : Blk}
    (hB : Bytes m) (hblk : blockAt m p b) (he : b.size % 2 = 0)
    (hp : 8 ≤ p) (h1 : 1 ≤ b.size) (halloc : b.alloc = true) :
    readTag (toggleBlock m p) (p - 4) = b.size ∧
    readTag (toggleBlock m p) (p + 8 * b.size - 8) = b.size ∧
    sizeOf (toggleBlock m p) p = b.size ∧
    isAllocated (toggleBlock m p) p = false := by
  have hps : sizeOf m p = b.size := sizeOf_of_blockAt hblk he
  have halc : isAllocated m p = true := by
    rw [isAllocated_of_blockAt hblk he, halloc]
  have hH : readTag (toggleBlock m p) (p - 4) = b.size := by
    rw [readTag_toggleBlock_header hB hp (by omega)]
    rw [hps, halc]
    simp
  have hF : readTag (toggleBlock m p) (p + 8 * b.size - 8) = b.size := by
    have h := readTag_toggleBlock_footer (p := p) hB hp (by omega)
    rw [hps, halc] at h
    simpa using h
  refine ⟨hH, hF, ?_, ?_⟩
  · rw [sizeOf_val hH]
    omega
  · rw [isAllocated_val hH]
    simp only [decide_eq_false_iff_not]
    omega

/-- Witness for C6: toggling the allocated 2-word block at base 16 of
`st1` leaves size 2 in both tags and the block reads as free. -/
theorem C6_toggle_witness :
    readTag (toggleBlock st1.heap.mem 16) (16 - 4) =
      (⟨2, true⟩ : Blk).size ∧
    readTag (toggleBlock st1.heap.mem 16)
      (16 + 8 * (⟨2, true⟩ : Blk).size - 8) = (⟨2, true⟩ : Blk).size ∧
    sizeOf (toggleBlock st1.heap.mem 16) 16 = (⟨2, true⟩ : Blk).size ∧
    isAllocated (toggleBlock st1.heap.mem 16) 16 = false :=
  C6_toggle st1_WF.bytes
    (st1_WF.blockAt_decomp (show [(⟨2, true⟩ : Blk), ⟨4, false⟩] =
      [] ++ (⟨2, true⟩ : Blk) :: [⟨4, false⟩] from rfl))
    (by decide) (by decide) (by decide) rfl

/-- Claim C7.  When no block fits, the heap is extended: if the block
before the epilogue is free with `f` words, only `actSize − f` words are
requested (the break grows by `8·(actSize − f)` bytes) and the new
allocated block starts at that tail block`s base; if it is allocated the
full `actSize` words are requested and the block starts at the old end
of the heap. -/
theorem C7_extension {s : AState} {bs init2 : List Blk} {lastb : Blk}
    {N : Nat}
    (hWF : WF s bs) (hN : 0 < N) (hOV : N + 24 ≤ U32)
    (hdec : bs = init2 ++ [lastb])
    (hnofit : ∀ c ∈ bs, c.alloc = true ∨ c.size < actSizeCalc N)
    (h31 : 8 * actSizeCalc N < 2147483648)
    (hcap : s.heap.brk +
      8 * (actSizeCalc N - cond lastb.alloc 0 lastb.size) ≤ s.heap.cap) :
    (mm_malloc s N).1 =
      some (cond lastb.alloc (16 + 8 * Wsum bs) (16 + 8 * Wsum init2)) ∧
    (mm_malloc s N).2.heap.brk = s.heap.brk +
      8 * (actSizeCalc N - cond lastb.alloc 0 lastb.size) ∧
    WF (mm_malloc s N).2
      ((cond lastb.alloc bs init2) ++ [⟨actSizeCalc N, true⟩]) :=
  malloc_nofit hWF hN hOV hdec hnofit h31 hcap

/-- Witness for C7: `mm_malloc st0 128` needs 18 words, the free 6-word
tail absorbs the extension, only 12 words are requested (break grows by
96 bytes to 160) and the block starts at base 16. -/
theorem C7_extension_witness :
    (mm_malloc st0 128).1 = some (cond (⟨6, false⟩ : Blk).alloc
      (16 + 8 * Wsum [(⟨6, false⟩ : Blk)]) (16 + 8 * Wsum ([] : List Blk))) ∧
    (mm_malloc st0 128).2.heap.brk = st0.heap.brk +
      8 * (actSizeCalc 128 -
        cond (⟨6, false⟩ : Blk).alloc 0 (⟨6, false⟩ : Blk).size) ∧
    WF (mm_malloc st0 128).2
      ((cond (⟨6, false⟩ : Blk).alloc [(⟨6, false⟩ : Blk)] []) ++
        [⟨actSizeCalc 128, true⟩]) :=
  C7_extension (N := 128) st0_WF (by decide) (by decide)
    (show [(⟨6, false⟩ : Blk)] = [] ++ [(⟨6, false⟩ : Blk)] from rfl)
    (by decide) (by decide) (by decide)

/-- Claim C8.  If the provider cannot honor the required extension,
`allocate` returns null with the state exactly unchanged, and so does a
moving `reallocate` (its inner `allocate` fails first, the old block is
untouched). -/
theorem C8_oom {s : AState} {bs init2 : List Blk} {lastb : Blk} {N : Nat}
    (hWF : WF s bs) (hN : 0 < N) (hOV : N + 24 ≤ U32)
    (hdec : bs = init2 ++ [lastb])
    (hnofit : ∀ c ∈ bs, c.alloc = true ∨ c.size < actSizeCalc N)
    (hfail : ¬(8 * (actSizeCalc N - cond lastb.alloc 0 lastb.size) <
        2147483648 ∧
      s.heap.brk + 8 * (actSizeCalc N - cond lastb.alloc 0 lastb.size) ≤
        s.heap.cap)) :
    mm_malloc s N = (none, s) ∧
    ∀ p, p ≠ 0 → mm_realloc s p N = (none, s) := by
  have hz := malloc_oom hWF hN hOV hdec hnofit hfail
  refine ⟨hz, fun p hp => ?_⟩
  refine mm_realloc_none hp (by omega) ?_
  rw [hz]

/-- Witness for C8: on the 64-byte-capacity heap `stSmall`,
`mm_malloc 128` and `mm_realloc 16 128` both fail and return the state
unchanged. -/
theorem C8_oom_witness :
    mm_malloc stSmall 128 = (none, stSmall) ∧
    mm_realloc stSmall 16 128 = (none, stSmall) := by
  have h := C8_oom (N := 128) stSmall_WF (by decide) (by decide)
    (show [(⟨6, false⟩ : Blk)] = [] ++ [(⟨6, false⟩ : Blk)] from rfl)
    (by decide) (by decide)
  exact ⟨h.1, h.2 16 (by decide)⟩

/-- Claim C9.  Every state reachable through the public API (used within
its contract) realizes a well-formed block list in which no two adjacent
blocks are both free. -/
theorem C9_no_adjacent_free {s : AState} (h : Reach s) :
    ∃ bs, WF s bs ∧ noAdjFree bs := by
  obtain ⟨bs, hWF⟩ := Reach_WF h
  exact ⟨bs, hWF, hWF.noadj⟩

/-- Witness for C9: the state `st1 = malloc(init(), 8)` is reachable and
carries a no-adjacent-free block list. -/
theorem C9_no_adjacent_free_witness : ∃ bs, WF st1 bs ∧ noAdjFree bs :=
  C9_no_adjacent_free (Reach.malloc st0 8
    (Reach.init zeroMem 1024 st0 bytes_zeroMem (by norm_num) (by rfl))
    (by decide))

/-- Claim C10 (code bug).  `mm_init` stores the prologue through a
`byte*`, writing the single byte `0 | 1`; the upper three bytes of the
prologue tag keep whatever the provider region held, so on a region with
a nonzero byte at offset 9 the prologue tag reads 65281 — its size field
is 65280, not the specified 0. -/
theorem C10_prologue_byte :
    (mm_init garbageMem 1024).isSome = true ∧
    readTag stG.heap.mem 8 = 65281 ∧
    readTag stG.heap.mem 8 % 2 = 1 ∧
    readTag stG.heap.mem 8 - readTag stG.heap.mem 8 % 2 ≠ 0 := by decide

end Malloc
